import Mathlib

/-!
# RTinOneWeek: sphere intersection, image textures and the path integrator

A shallow embedding of `src/header/sphere.h`, `src/header/texture.h` and
`src/main.cpp`.

Modelling conventions.

* `double` is an element of a linearly ordered field `F` (exact arithmetic; no rounding,
  no NaN).  The `<cmath>` functions the code calls are the fields of `CMath F`; theorems
  that depend on `sqrt` assume it is the exact non-negative square root.
* Division by zero has no counterpart in the model (`x / 0` is `0` in a field of Lean);
  the statements that divide by `|direction|^2` are about rays with non-zero direction.
* The upper end `t_max` of a ray range is a `WithTop F`, so that the constant `infinity`
  passed by `ray_color` is `⊤`.
* `int` is `Int` with every `int` operation of `texture.h` reduced modulo `2^32` into
  `[-2^31, 2^31)` by `int_wrap`; the recursion counter `depth - 1` of `ray_color` is
  computed only for `depth > 0`, where it cannot overflow.
* A read through a pointer returns `none` when it falls outside the buffer.
* `hit_record::set_face_normal` is declared in the absent `hittable.h`: its front-face
  flag follows the rule of the spec, and the vector it stores as the normal is a
  parameter `nrm` of every function that calls it.
* `bool f(..., hit_record& rec)` becomes a function taking the record's contents before the
  call and returning `some` of its contents after the call when `f` returns `true`, and
  `none` when `f` returns `false`.
* Global mutable state (the random-number generator used by materials) is a value of an
  arbitrary type `S` threaded through every call that can touch it.
-/

namespace RTinOneWeek

/-! ## vec3 and ray -/

/-- Modelled from the spec: `vec3.h` is not among the sources. A three-component
vector/point/colour (spec §3). -/
@[ext]
structure Vec3 (F : Type) where
  x : F
  y : F
  z : F
deriving DecidableEq, Repr

namespace Vec3

variable {F : Type} [LinearOrderedField F]

instance : Zero (Vec3 F) := ⟨⟨0, 0, 0⟩⟩
instance : Add (Vec3 F) := ⟨fun a b => ⟨a.x + b.x, a.y + b.y, a.z + b.z⟩⟩
instance : Sub (Vec3 F) := ⟨fun a b => ⟨a.x - b.x, a.y - b.y, a.z - b.z⟩⟩
instance : Neg (Vec3 F) := ⟨fun a => ⟨-a.x, -a.y, -a.z⟩⟩
/-- Component-wise product `vec3 * vec3`. -/
instance : Mul (Vec3 F) := ⟨fun a b => ⟨a.x * b.x, a.y * b.y, a.z * b.z⟩⟩
/-- Scaling `double * vec3`. -/
instance : HMul F (Vec3 F) (Vec3 F) := ⟨fun t a => ⟨t * a.x, t * a.y, t * a.z⟩⟩
/-- Division `vec3 / double`. -/
instance : HDiv (Vec3 F) F (Vec3 F) := ⟨fun a t => ⟨a.x / t, a.y / t, a.z / t⟩⟩

/-- The inner product `dot(u, v)`. -/
def dot (u v : Vec3 F) : F := u.x * v.x + u.y * v.y + u.z * v.z

/-- The squared Euclidean length `v.length_squared()`. -/
def length_squared (v : Vec3 F) : F := v.x * v.x + v.y * v.y + v.z * v.z

end Vec3

/-- The mathematical library the code calls, taken as a parameter: the `<cmath>` functions
`sqrt`, `acos`, `atan2`, `sin` and the constant `PI` of the absent `macro.h`. -/
structure CMath (F : Type) where
  sqrt : F → F
  acos : F → F
  atan2 : F → F → F
  sin : F → F
  PI : F

/-- The library square root is exact: on a non-negative argument it returns the
non-negative number whose square is the argument. -/
def CMath.ExactSqrt {F : Type} [LinearOrderedField F] (m : CMath F) : Prop :=
  ∀ x : F, 0 ≤ x → 0 ≤ m.sqrt x ∧ m.sqrt x * m.sqrt x = x

/-- Modelled from the spec: `ray.h` is not among the sources. Origin, direction and a time
(spec §3). -/
structure Ray (F : Type) where
  orig : Vec3 F
  dir : Vec3 F
  tm : F
deriving DecidableEq, Repr

namespace Ray

variable {F : Type} [LinearOrderedField F]

/-- Accessor `r.origin()`. -/
def origin (r : Ray F) : Vec3 F := r.orig

/-- Accessor `r.direction()`. -/
def direction (r : Ray F) : Vec3 F := r.dir

/-- Accessor `r.time()`. -/
def time (r : Ray F) : F := r.tm

/-- The point `r.at(t) = origin + t*direction`. -/
def «at» (r : Ray F) (t : F) : Vec3 F := r.orig + t * r.dir

end Ray

/-! ## hit records -/

/-- Modelled from the spec: `hittable.h` is not among the sources. The hit record of
spec §3: hit point, stored normal, parametric distance, front-face flag, surface
coordinate and the material handle (`M` is the type of material handles). -/
structure HitRecord (F M : Type) where
  p : Vec3 F
  normal : Vec3 F
  t : F
  front_face : Bool
  u : F
  v : F
  mat_ptr : M
deriving DecidableEq, Repr

/-- The vector that `hit_record::set_face_normal` stores in `rec.normal`, taken as a
parameter: a function of the two arguments of the call, the ray and the outward normal.
The function is declared in the absent `hittable.h`, and the spec names the stored vector
only as the "outward/corrected surface normal" (spec §3). -/
abbrev NormalRule (F : Type) := Ray F → Vec3 F → Vec3 F

/-- Modelled from the spec: `hit_record::set_face_normal` of the absent `hittable.h`.
The front-face flag is set iff the ray direction and the outward normal have a negative
dot product (spec §4.1); the stored normal is what the parameter `nrm` gives. -/
def HitRecord.set_face_normal {F M : Type} [LinearOrderedField F] (nrm : NormalRule F)
    (rec : HitRecord F M) (r : Ray F) (outward_normal : Vec3 F) : HitRecord F M :=
  let front_face : Bool := decide (Vec3.dot r.direction outward_normal < 0)
  { rec with
    front_face := front_face
    normal := nrm r outward_normal }

/-! ## sphere.h -/

/-- The class `sphere`: centre, radius, material handle. -/
structure Sphere (F M : Type) where
  center : Vec3 F
  radius : F
  mat_ptr : M
deriving DecidableEq, Repr

section sphere

variable {F M : Type} [LinearOrderedField F]

/-- The body of `sphere::get_sphere_uv(const point3& p, double u, double v)`. The
parameters `u` and `v` are passed by value; the result is the pair of final values of
these two local variables. -/
def get_sphere_uv (m : CMath F) (p : Vec3 F) (_u _v : F) : F × F :=
  let theta := m.acos (-p.y)
  let phi := m.atan2 (-p.z) p.x + m.PI
  let u := phi / (2 * m.PI)
  let v := theta / m.PI
  (u, v)

/-- The value `discriminant` of `sphere::hit` (lines 45-50). -/
def sphere_discriminant (s : Sphere F M) (r : Ray F) : F :=
  let oc := r.origin - s.center
  let a := r.direction.length_squared
  let half_b := Vec3.dot oc r.direction
  let c := oc.length_squared - s.radius * s.radius
  half_b * half_b - a * c

/-- The root selection of `sphere::hit` (lines 45-60): `some root` when one of the two
candidate roots is accepted, `none` when the function returns `false`. -/
def sphere_root (m : CMath F) (s : Sphere F M) (r : Ray F) (t_min : F) (t_max : WithTop F) :
    Option F :=
  let oc := r.origin - s.center
  let a := r.direction.length_squared
  let half_b := Vec3.dot oc r.direction
  let c := oc.length_squared - s.radius * s.radius
  let discriminant := half_b * half_b - a * c
  if discriminant < 0 then none
  else
    let sqrtd := m.sqrt discriminant
    let root := (-half_b - sqrtd) / a
    if root < t_min ∨ t_max < (root : WithTop F) then
      let root := (-half_b + sqrtd) / a
      if root < t_min ∨ t_max < (root : WithTop F) then none
      else some root
    else some root

/-- The record update of `sphere::hit` (lines 62-67) for an accepted `root`. The call
`get_sphere_uv(rec.p, rec.u, rec.v)` receives copies of `rec.u` and `rec.v`, so it
leaves the record as it is. -/
def sphere_record (m : CMath F) (nrm : NormalRule F) (s : Sphere F M) (r : Ray F) (root : F)
    (rec : HitRecord F M) : HitRecord F M :=
  let rec1 := { rec with t := root }
  let rec2 := { rec1 with p := r.at rec1.t }
  let outward_normal := (rec2.p - s.center) / s.radius
  let rec3 := rec2.set_face_normal nrm r outward_normal
  let _uv := get_sphere_uv m rec3.p rec3.u rec3.v
  { rec3 with mat_ptr := s.mat_ptr }

/-- The method `sphere::hit`. -/
def sphere_hit (m : CMath F) (nrm : NormalRule F)
    (s : Sphere F M) (r : Ray F) (t_min : F) (t_max : WithTop F)
    (rec : HitRecord F M) : Option (HitRecord F M) :=
  match sphere_root m s r t_min t_max with
  | none => none
  | some root => some (sphere_record m nrm s r root rec)

end sphere

/-! ## Geometric vocabulary used by the statements -/

section geometry

variable {F M : Type} [LinearOrderedField F]

/-- One body of `set_face_normal` that the spec allows: the outward normal is stored as
it is. -/
def NormalRule.outward : NormalRule F := fun _ n => n

/-- Another body of `set_face_normal` that the spec allows: the outward normal is stored
turned against the ray. -/
def NormalRule.facing : NormalRule F :=
  fun r n => if Vec3.dot r.direction n < 0 then n else -n

/-- The ray point at parameter `t` lies on the sphere's surface:
`|origin + t*direction - center|^2 = radius^2`. -/
def OnSphere (s : Sphere F M) (r : Ray F) (t : F) : Prop :=
  (r.at t - s.center).length_squared = s.radius * s.radius

/-- The parameter `t` lies in the closed range `[t_min, t_max]`. -/
def InRange (t_min : F) (t_max : WithTop F) (t : F) : Prop :=
  t_min ≤ t ∧ (t : WithTop F) ≤ t_max

instance (t_min : F) (t_max : WithTop F) (t : F) : Decidable (InRange t_min t_max t) :=
  inferInstanceAs (Decidable (_ ∧ _))

/-- The first candidate root of `sphere::hit`, `(-half_b - sqrtd) / a`. -/
def sphere_root1 (m : CMath F) (s : Sphere F M) (r : Ray F) : F :=
  (-(Vec3.dot (r.origin - s.center) r.direction) - m.sqrt (sphere_discriminant s r))
    / r.direction.length_squared

/-- The second candidate root of `sphere::hit`, `(-half_b + sqrtd) / a`. -/
def sphere_root2 (m : CMath F) (s : Sphere F M) (r : Ray F) : F :=
  (-(Vec3.dot (r.origin - s.center) r.direction) + m.sqrt (sphere_discriminant s r))
    / r.direction.length_squared

end geometry

/-! ## texture.h -/

section texture
variable {F : Type} [LinearOrderedField F] [FloorRing F]

/-- Modelled from the spec: `clamp` of the absent `macro.h` (spec §4.3 "clamp `u` to
[0,1]"). -/
def clamp (x min max : F) : F :=
  if x < min then min else if x > max then max else x

/-- The conversion `static_cast<int>(double)`: truncation toward zero. -/
def static_cast_int (x : F) : Int :=
  if 0 ≤ x then ⌊x⌋ else ⌈x⌉

/-- The largest `int`, `INT_MAX = 2^31 - 1`. -/
def INT_MAX : Int := 2147483647

/-- The `int` that holds the result of an `int` operation whose mathematical value is `x`:
`x` reduced modulo `2^32` into `[-2^31, 2^31)`. It is `x` itself when `x` is in that
range. -/
def int_wrap (x : Int) : Int :=
  (x + 2147483648) % 4294967296 - 2147483648

/-- The constant `image_texture::bytes_per_pixel`. -/
def bytes_per_pixel : Int := 3

/-- The private members of `image_texture`. A null `data` pointer is `none`; a non-null
one is the byte buffer it points to (an `unsigned char` is a natural number). The three
`int` members hold values between `-2^31` and `INT_MAX`. -/
structure ImageTexture where
  data : Option (List Nat)
  width : Int
  height : Int
  bytes_per_scanline : Int
deriving DecidableEq, Repr

/-- The default constructor `image_texture()`. -/
def image_texture_default : ImageTexture :=
  { data := none, width := 0, height := 0, bytes_per_scanline := 0 }

/-- Modelled from the spec: what the decode collaborator `stbi_load` (absent
`stb_loader.h`, spec §6) hands back on success: a row-major interleaved byte buffer plus
width and height. -/
structure Decoded where
  data : List Nat
  width : Int
  height : Int
deriving DecidableEq, Repr

/-- The constructor `image_texture(const char* filename)`, as a function of the result of
`stbi_load` (`none` is the failure signal, a null pointer). -/
def image_texture_of_file (loaded : Option Decoded) : ImageTexture :=
  match loaded with
  | none =>
    let width : Int := 0
    let height : Int := 0
    { data := none, width := width, height := height,
      bytes_per_scanline := int_wrap (bytes_per_pixel * width) }
  | some d =>
    { data := some d.data, width := d.width, height := d.height,
      bytes_per_scanline := int_wrap (bytes_per_pixel * d.width) }

/-- The pixel indices `(i, j)` computed by `image_texture::value` (lines 99-107). The
two conversions to `int` are of values between `0` and `width`, `height`. -/
def image_texture_index (tex : ImageTexture) (u v : F) : Int × Int :=
  let u := clamp u 0 1
  let v := 1 - clamp v 0 1
  let i := static_cast_int (u * (tex.width : F))
  let j := static_cast_int (v * (tex.height : F))
  let i := if i ≥ tex.width then int_wrap (tex.width - 1) else i
  let j := if j ≥ tex.height then int_wrap (tex.height - 1) else j
  (i, j)

/-- The offset `j*bytes_per_scanline + i*bytes_per_pixel` that `image_texture::value` adds
to `data` (line 110): each product is an `int`, and the two are added to the pointer one
after the other. -/
def image_texture_offset (tex : ImageTexture) (i j : Int) : Int :=
  int_wrap (j * tex.bytes_per_scanline) + int_wrap (i * bytes_per_pixel)

/-- Reading `pixel[k]`: the byte at offset `k` of the buffer, `none` when the offset is
outside it. -/
def read_byte (data : List Nat) (k : Int) : Option Nat :=
  if 0 ≤ k then data[k.toNat]? else none

/-- The method `image_texture::value`. The result is `none` when a byte is read outside
the buffer. -/
def image_texture_value (tex : ImageTexture) (u v : F) (_p : Vec3 F) : Option (Vec3 F) :=
  match tex.data with
  | none => some ⟨1, 0, 0⟩
  | some data =>
    let (i, j) := image_texture_index tex u v
    let color_scale : F := 1 / 255
    let pixel := image_texture_offset tex i j
    match read_byte data pixel, read_byte data (pixel + 1), read_byte data (pixel + 2) with
    | some b0, some b1, some b2 =>
      some ⟨color_scale * (b0 : F), color_scale * (b1 : F), color_scale * (b2 : F)⟩
    | _, _, _ => none

/-! ### Vocabulary for the statements about textures -/

/-- The colour of the stored pixel in column `col` of row `row` of a decoded image (rows
top to bottom, three consecutive bytes per pixel, each scaled by `1/255`); `none` when
the pixel is not in the buffer. -/
def stored_pixel (d : Decoded) (col row : Int) : Option (Vec3 F) :=
  let k := (row * d.width + col) * 3
  match read_byte d.data k, read_byte d.data (k + 1), read_byte d.data (k + 2) with
  | some b0, some b1, some b2 =>
    some ⟨1 / 255 * (b0 : F), 1 / 255 * (b1 : F), 1 / 255 * (b2 : F)⟩
  | _, _, _ => none

end texture

/-! ## main.cpp -/

section integrator
variable {F M S : Type} [LinearOrderedField F]

/-- The length `v.length()`. -/
def Vec3.length (m : CMath F) (v : Vec3 F) : F := m.sqrt v.length_squared

/-- The function `unit_vector(v) = v / v.length()`. -/
def unit_vector (m : CMath F) (v : Vec3 F) : Vec3 F := v / Vec3.length m v

/-- The virtual method `hittable::hit` of a scene, taken as a parameter (the class is
declared in the absent `hittable.h`; spec §3). -/
abbrev Hittable (F M S : Type) :=
  Ray F → F → WithTop F → HitRecord F M → S → Option (HitRecord F M) × S

/-- The virtual method `material::scatter`, taken as a parameter and dispatched on the
material handle (the class is declared in the absent `material.h`; spec §6):
`some (attenuation, scattered)` when it returns `true`, `none` when it signals
absorption. -/
abbrev Scatter (F M S : Type) :=
  M → Ray F → HitRecord F M → S → Option (Vec3 F × Ray F) × S

/-- The function `ray_color` of `main.cpp`. `rec0` is the content of the uninitialised
local `hit_record rec`. -/
def ray_color (m : CMath F) (scatter : Scatter F M S) (rec0 : HitRecord F M)
    (r : Ray F) (world : Hittable F M S) (depth : Int) (s : S) : Vec3 F × S :=
  if depth ≤ 0 then (⟨0.0, 0.0, 0.0⟩, s)
  else
    match world r 0.001 ⊤ rec0 s with
    | (some rec, s1) =>
      match scatter rec.mat_ptr r rec s1 with
      | (some (attenuation, scattered), s2) =>
        let (c, s3) := ray_color m scatter rec0 scattered world (depth - 1) s2
        (attenuation * c, s3)
      | (none, s2) => (⟨0.0, 0.0, 0.0⟩, s2)
    | (none, s1) =>
      let unit_direction := unit_vector m r.direction
      let t := 0.5 * (unit_direction.y + 1.0)
      ((1.0 - t) * (⟨1.0, 1.0, 1.0⟩ : Vec3 F) + t * (⟨0.5, 0.7, 1.0⟩ : Vec3 F), s1)
termination_by depth.toNat
decreasing_by omega

end integrator

/-! ## Bounding boxes and the moving sphere (sphere.h) -/

/-- Modelled from the spec: `aabb.h` is not among the sources. An axis-aligned bounding
box is a min/max corner pair (spec §3). -/
structure Aabb (F : Type) where
  minimum : Vec3 F
  maximum : Vec3 F
deriving DecidableEq, Repr

/-- The class `moving_sphere`: two centres, a time window, radius, material handle. -/
structure MovingSphere (F M : Type) where
  center0 : Vec3 F
  center1 : Vec3 F
  time0 : F
  time1 : F
  radius : F
  mat_ptr : M
deriving DecidableEq, Repr

section moving_sphere

variable {F M : Type} [LinearOrderedField F]

/-- Modelled from the spec: `surrounding_box` of the absent `aabb.h`: the component-wise
min of the min corners and max of the max corners (spec §3). -/
def surrounding_box (box0 box1 : Aabb F) : Aabb F :=
  { minimum := ⟨min box0.minimum.x box1.minimum.x, min box0.minimum.y box1.minimum.y,
      min box0.minimum.z box1.minimum.z⟩
    maximum := ⟨max box0.maximum.x box1.maximum.x, max box0.maximum.y box1.maximum.y,
      max box0.maximum.z box1.maximum.z⟩ }

/-- The method `sphere::bounding_box`: `some output_box` when it returns `true`. -/
def sphere_bounding_box (s : Sphere F M) (_time0 _time1 : F) : Option (Aabb F) :=
  let output_box : Aabb F :=
    ⟨s.center - ⟨s.radius, s.radius, s.radius⟩, s.center + ⟨s.radius, s.radius, s.radius⟩⟩
  some output_box

/-- The method `moving_sphere::center`. -/
def moving_sphere_center (ms : MovingSphere F M) (time : F) : Vec3 F :=
  ms.center0 + ((time - ms.time0) / (ms.time1 - ms.time0)) * (ms.center1 - ms.center0)

/-- The root selection of `moving_sphere::hit` (lines 110-124). -/
def moving_sphere_root (m : CMath F) (ms : MovingSphere F M) (r : Ray F) (t_min : F)
    (t_max : WithTop F) : Option F :=
  let oc := r.origin - moving_sphere_center ms r.time
  let a := r.direction.length_squared
  let half_b := Vec3.dot oc r.direction
  let c := oc.length_squared - ms.radius * ms.radius
  let discriminant := half_b * half_b - a * c
  if discriminant < 0 then none
  else
    let sqrtd := m.sqrt discriminant
    let root := (-half_b - sqrtd) / a
    if root < t_min ∨ t_max < (root : WithTop F) then
      let root := (-half_b + sqrtd) / a
      if root < t_min ∨ t_max < (root : WithTop F) then none
      else some root
    else some root

/-- The record update of `moving_sphere::hit` (lines 126-130) for an accepted `root`. -/
def moving_sphere_record (nrm : NormalRule F) (ms : MovingSphere F M) (r : Ray F) (root : F)
    (rec : HitRecord F M) : HitRecord F M :=
  let rec1 := { rec with t := root }
  let rec2 := { rec1 with p := r.at rec1.t }
  let outward_normal := (rec2.p - moving_sphere_center ms r.time) / ms.radius
  let rec3 := rec2.set_face_normal nrm r outward_normal
  { rec3 with mat_ptr := ms.mat_ptr }

/-- The method `moving_sphere::hit`. -/
def moving_sphere_hit (m : CMath F) (nrm : NormalRule F)
    (ms : MovingSphere F M) (r : Ray F) (t_min : F)
    (t_max : WithTop F) (rec : HitRecord F M) : Option (HitRecord F M) :=
  match moving_sphere_root m ms r t_min t_max with
  | none => none
  | some root => some (moving_sphere_record nrm ms r root rec)

/-- The method `moving_sphere::bounding_box`. Its parameters `time0` and `time1` hide the
members of the same names inside the body; `center` still reads the members. -/
def moving_sphere_bounding_box (ms : MovingSphere F M) (time0 time1 : F) :
    Option (Aabb F) :=
  let box0 : Aabb F :=
    ⟨moving_sphere_center ms time0 - ⟨ms.radius, ms.radius, ms.radius⟩,
      moving_sphere_center ms time0 + ⟨ms.radius, ms.radius, ms.radius⟩⟩
  let box1 : Aabb F :=
    ⟨moving_sphere_center ms time1 - ⟨ms.radius, ms.radius, ms.radius⟩,
      moving_sphere_center ms time1 + ⟨ms.radius, ms.radius, ms.radius⟩⟩
  let output_box := surrounding_box box0 box1
  some output_box

/-- The static sphere that a moving sphere is at time `time`. -/
def moving_sphere_at (ms : MovingSphere F M) (time : F) : Sphere F M :=
  ⟨moving_sphere_center ms time, ms.radius, ms.mat_ptr⟩

/-- The point `q` lies in the box: `minimum <= q <= maximum` in each axis. -/
def Aabb.Contains (box : Aabb F) (q : Vec3 F) : Prop :=
  (box.minimum.x ≤ q.x ∧ q.x ≤ box.maximum.x) ∧
  (box.minimum.y ≤ q.y ∧ q.y ≤ box.maximum.y) ∧
  (box.minimum.z ≤ q.z ∧ q.z ≤ box.maximum.z)

/-- The min corner of the box is component-wise `<=` its max corner. -/
def Aabb.Ordered (box : Aabb F) : Prop :=
  box.minimum.x ≤ box.maximum.x ∧ box.minimum.y ≤ box.maximum.y ∧
  box.minimum.z ≤ box.maximum.z

/-- The point `q` lies on the surface of the sphere with centre `c` and radius `radius`:
`|q - c| = |radius|`. -/
def OnSurface (m : CMath F) (c : Vec3 F) (radius : F) (q : Vec3 F) : Prop :=
  Vec3.length m (q - c) = |radius|

/-- The parameter of the point of the ray's line nearest to `c`, `-half_b / a`. -/
def nearest_param (c : Vec3 F) (r : Ray F) : F :=
  -(Vec3.dot (r.origin - c) r.direction) / r.direction.length_squared

/-- The perpendicular distance from the point `c` to the line of the ray. -/
def line_distance (m : CMath F) (c : Vec3 F) (r : Ray F) : F :=
  Vec3.length m (r.at (nearest_param c r) - c)

end moving_sphere

/-! ## checker_texture and solid_color (texture.h) -/

/-- The members of `checker_texture`: the virtual `value` methods of the two
sub-textures, with `C` the type of what a sub-texture returns. -/
structure CheckerTexture (F C : Type) where
  odd : F → F → Vec3 F → C
  even : F → F → Vec3 F → C

section checker

variable {F C : Type} [LinearOrderedField F]

/-- The method `solid_color::value`. -/
def solid_color_value (color_val : Vec3 F) (_u _v : F) (_p : Vec3 F) : Vec3 F :=
  color_val

/-- The constructor `checker_texture(color c1, color c2)`. -/
def checker_texture_of_colors (c1 c2 : Vec3 F) : CheckerTexture F (Vec3 F) :=
  { odd := solid_color_value c1, even := solid_color_value c2 }

/-- The value `sines` of `checker_texture::value`. -/
def checker_sines (m : CMath F) (p : Vec3 F) : F :=
  m.sin (10 * p.x) * m.sin (10 * p.y) * m.sin (10 * p.z)

/-- The method `checker_texture::value`. -/
def checker_texture_value (m : CMath F) (tex : CheckerTexture F C) (u v : F) (p : Vec3 F) :
    C :=
  let sines := m.sin (10 * p.x) * m.sin (10 * p.y) * m.sin (10 * p.z)
  if sines < 0 then tex.odd u v p
  else tex.even u v p

end checker

/-! ## Vocabulary for the statements about the path integrator -/

/-- Call counters: scene queries, hits reported by the scene, calls of `scatter`. -/
structure Calls where
  queries : Nat
  hits : Nat
  scatters : Nat
deriving DecidableEq, Repr

section counting

variable {F M S : Type} [LinearOrderedField F]

/-- The scene `world` with every query, and every query answered by a hit, counted in the
global state. -/
def counting_world (world : Hittable F M S) : Hittable F M (S × Calls) :=
  fun r t_min t_max rec st =>
    match world r t_min t_max rec st.1 with
    | (some h, s1) =>
      (some h, (s1, { st.2 with queries := st.2.queries + 1, hits := st.2.hits + 1 }))
    | (none, s1) => (none, (s1, { st.2 with queries := st.2.queries + 1 }))

/-- The materials `scatter` with every call counted in the global state. -/
def counting_scatter (scatter : Scatter F M S) : Scatter F M (S × Calls) :=
  fun mat r rec st =>
    ((scatter mat r rec st.1).1,
      ((scatter mat r rec st.1).2, { st.2 with scatters := st.2.scatters + 1 }))

/-- Every component of the colour lies in `[lo, hi]`. -/
def Vec3.Within (lo hi : F) (c : Vec3 F) : Prop :=
  (lo ≤ c.x ∧ c.x ≤ hi) ∧ (lo ≤ c.y ∧ c.y ≤ hi) ∧ (lo ≤ c.z ∧ c.z ≤ hi)

end counting

/-- The real-number interpretation of the mathematical library. -/
noncomputable def realMath : CMath ℝ where
  sqrt := Real.sqrt
  acos := Real.arccos
  atan2 := fun y x => Complex.arg ⟨x, y⟩
  sin := Real.sin
  PI := Real.pi

/-! ## Concrete inputs used by the examples -/

/-- A unit sphere at the origin. -/
def unitSphere : Sphere ℝ Unit := ⟨⟨0, 0, 0⟩, 1, ()⟩

/-- A ray from `(0,0,3)` towards the origin. -/
def rayDownZ : Ray ℝ := ⟨⟨0, 0, 3⟩, ⟨0, 0, -1⟩, 0⟩

/-- A hit record whose surface coordinate is `(5, 5)`. -/
def staleRecord : HitRecord ℝ Unit := ⟨⟨0, 0, 0⟩, ⟨0, 0, 0⟩, 0, false, 5, 5, ()⟩

/-- A ray from the origin straight up. -/
def rayUp : Ray ℝ := ⟨⟨0, 0, 0⟩, ⟨0, 2, 0⟩, 0⟩

/-- The empty scene: every query is a miss. -/
def emptyWorld : Hittable ℝ Unit Unit := fun _ _ _ _ s => (none, s)

/-- A scene in which every query is a hit that leaves the record as it was. -/
def alwaysHit : Hittable ℝ Unit Unit := fun _ _ _ rec s => (some rec, s)

/-- A material that scatters the incoming ray unchanged with attenuation `(1,1,0)`. -/
def yellowScatter : Scatter ℝ Unit Unit := fun _ r _ s => (some (⟨1, 1, 0⟩, r), s)

/-- A ray along `-z` that touches the unit sphere at `(1,0,0)`. -/
def rayTangent : Ray ℝ := ⟨⟨1, 0, 3⟩, ⟨0, 0, -1⟩, 0⟩

/-- A unit sphere that moves from the origin to `(0,1,0)` over the window `[0,1]`. -/
def risingSphere : MovingSphere ℝ Unit := ⟨⟨0, 0, 0⟩, ⟨0, 1, 0⟩, 0, 1, 1, ()⟩

/-- A decoded image two pixels wide and one pixel high. -/
def twoColumnImage : Decoded := ⟨[10, 20, 30, 40, 50, 60], 2, 1⟩

/-- A material that always scatters the ray `rayUp` with attenuation `(1,1,0)`. -/
def upScatter : Scatter ℝ Unit Unit := fun _ _ _ s => (some (⟨1, 1, 0⟩, rayUp), s)

/-- A decoded image one pixel wide and two pixels high. -/
def twoRowImage : Decoded := ⟨[10, 20, 30, 40, 50, 60], 1, 2⟩

/-! ## Theorems: vector components -/

namespace Vec3

variable {F : Type} [LinearOrderedField F]

@[simp] theorem zero_x : (0 : Vec3 F).x = 0 := rfl
@[simp] theorem zero_y : (0 : Vec3 F).y = 0 := rfl
@[simp] theorem zero_z : (0 : Vec3 F).z = 0 := rfl
@[simp] theorem add_x (a b : Vec3 F) : (a + b).x = a.x + b.x := rfl
@[simp] theorem add_y (a b : Vec3 F) : (a + b).y = a.y + b.y := rfl
@[simp] theorem add_z (a b : Vec3 F) : (a + b).z = a.z + b.z := rfl
@[simp] theorem sub_x (a b : Vec3 F) : (a - b).x = a.x - b.x := rfl
@[simp] theorem sub_y (a b : Vec3 F) : (a - b).y = a.y - b.y := rfl
@[simp] theorem sub_z (a b : Vec3 F) : (a - b).z = a.z - b.z := rfl
@[simp] theorem neg_x (a : Vec3 F) : (-a).x = -a.x := rfl
@[simp] theorem neg_y (a : Vec3 F) : (-a).y = -a.y := rfl
@[simp] theorem neg_z (a : Vec3 F) : (-a).z = -a.z := rfl
@[simp] theorem mul_x (a b : Vec3 F) : (a * b).x = a.x * b.x := rfl
@[simp] theorem mul_y (a b : Vec3 F) : (a * b).y = a.y * b.y := rfl
@[simp] theorem mul_z (a b : Vec3 F) : (a * b).z = a.z * b.z := rfl
@[simp] theorem smul_x (t : F) (a : Vec3 F) : (t * a).x = t * a.x := rfl
@[simp] theorem smul_y (t : F) (a : Vec3 F) : (t * a).y = t * a.y := rfl
@[simp] theorem smul_z (t : F) (a : Vec3 F) : (t * a).z = t * a.z := rfl
@[simp] theorem div_x (a : Vec3 F) (t : F) : (a / t).x = a.x / t := rfl
@[simp] theorem div_y (a : Vec3 F) (t : F) : (a / t).y = a.y / t := rfl
@[simp] theorem div_z (a : Vec3 F) (t : F) : (a / t).z = a.z / t := rfl

end Vec3

/-! ## Theorems: sphere intersection -/

section sphere_theorems

variable {F M : Type} [LinearOrderedField F]

theorem length_squared_pos_of_ne_zero {d : Vec3 F} (hd : d ≠ 0) : 0 < d.length_squared := by
  have h : d.x ≠ 0 ∨ d.y ≠ 0 ∨ d.z ≠ 0 := by
    by_contra hc
    push_neg at hc
    apply hd
    cases d
    simp only [Vec3.mk.injEq] at *
    exact Vec3.ext hc.1 hc.2.1 hc.2.2
  unfold Vec3.length_squared
  rcases h with h | h | h
  · nlinarith [mul_self_pos.mpr h, mul_self_nonneg d.y, mul_self_nonneg d.z]
  · nlinarith [mul_self_pos.mpr h, mul_self_nonneg d.x, mul_self_nonneg d.z]
  · nlinarith [mul_self_pos.mpr h, mul_self_nonneg d.x, mul_self_nonneg d.y]

theorem onSphere_iff (s : Sphere F M) (r : Ray F) (t : F)
    (ha : r.direction.length_squared ≠ 0) :
    OnSphere s r t ↔
      (r.direction.length_squared * t + Vec3.dot (r.origin - s.center) r.direction) ^ 2
        = sphere_discriminant s r := by
  unfold OnSphere sphere_discriminant
  simp only [Ray.at, Ray.origin, Ray.direction, Vec3.dot, Vec3.length_squared, Vec3.sub_x,
    Vec3.sub_y, Vec3.sub_z, Vec3.add_x, Vec3.add_y, Vec3.add_z, Vec3.smul_x, Vec3.smul_y,
    Vec3.smul_z] at *
  constructor
  · intro h
    linear_combination (r.dir.x * r.dir.x + r.dir.y * r.dir.y + r.dir.z * r.dir.z) * h
  · intro h
    apply mul_left_cancel₀ ha
    linear_combination h

theorem not_out_iff (t_min : F) (t_max : WithTop F) (t : F) :
    ¬ (t < t_min ∨ t_max < (t : WithTop F)) ↔ InRange t_min t_max t := by
  unfold InRange
  rw [not_or, not_lt, not_lt]

theorem sphere_root_eq (m : CMath F) (s : Sphere F M) (r : Ray F) (t_min : F)
    (t_max : WithTop F) :
    sphere_root m s r t_min t_max =
      if sphere_discriminant s r < 0 then none
      else if InRange t_min t_max (sphere_root1 m s r) then some (sphere_root1 m s r)
      else if InRange t_min t_max (sphere_root2 m s r) then some (sphere_root2 m s r)
      else none := by
  unfold sphere_root
  show (if sphere_discriminant s r < 0 then none else
      if sphere_root1 m s r < t_min ∨ t_max < ((sphere_root1 m s r : F) : WithTop F) then
        if sphere_root2 m s r < t_min ∨ t_max < ((sphere_root2 m s r : F) : WithTop F) then none
        else some (sphere_root2 m s r)
      else some (sphere_root1 m s r)) = _
  by_cases h0 : sphere_discriminant s r < 0
  · rw [if_pos h0, if_pos h0]
  · rw [if_neg h0, if_neg h0]
    by_cases h1 : sphere_root1 m s r < t_min ∨ t_max < ((sphere_root1 m s r : F) : WithTop F)
    · rw [if_pos h1, if_neg ((not_out_iff _ _ _).not_right.mp h1)]
      by_cases h2 : sphere_root2 m s r < t_min ∨ t_max < ((sphere_root2 m s r : F) : WithTop F)
      · rw [if_pos h2, if_neg ((not_out_iff _ _ _).not_right.mp h2)]
      · rw [if_neg h2, if_pos ((not_out_iff _ _ _).mp h2)]
    · rw [if_neg h1, if_pos ((not_out_iff _ _ _).mp h1)]

theorem onSphere_iff_root (m : CMath F) (hm : m.ExactSqrt) (s : Sphere F M) (r : Ray F)
    (hd : 0 < r.direction.length_squared) (h0 : ¬ sphere_discriminant s r < 0) (t : F) :
    OnSphere s r t ↔ t = sphere_root1 m s r ∨ t = sphere_root2 m s r := by
  have hs := hm _ (not_lt.mp h0)
  rw [onSphere_iff s r t hd.ne']
  unfold sphere_root1 sphere_root2
  set a := r.direction.length_squared
  set hb := Vec3.dot (r.origin - s.center) r.direction
  set q := m.sqrt (sphere_discriminant s r)
  rw [eq_div_iff hd.ne', eq_div_iff hd.ne']
  constructor
  · intro h
    have : (a * t + hb - q) * (a * t + hb + q) = 0 := by
      linear_combination h - hs.2
    rcases mul_eq_zero.mp this with h1 | h1
    · right; linear_combination h1
    · left; linear_combination h1
  · rintro (h | h)
    · rw [← hs.2]; linear_combination (a * t + hb - q) * h
    · rw [← hs.2]; linear_combination (a * t + hb + q) * h

theorem sphere_root1_le_root2 (m : CMath F) (hm : m.ExactSqrt) (s : Sphere F M) (r : Ray F)
    (hd : 0 < r.direction.length_squared) (h0 : ¬ sphere_discriminant s r < 0) :
    sphere_root1 m s r ≤ sphere_root2 m s r := by
  have hs := hm _ (not_lt.mp h0)
  unfold sphere_root1 sphere_root2
  apply div_le_div_of_nonneg_right _ hd.le
  linarith [hs.1]

theorem not_onSphere_of_discriminant_neg (s : Sphere F M) (r : Ray F)
    (hd : 0 < r.direction.length_squared) (h0 : sphere_discriminant s r < 0) (t : F) :
    ¬ OnSphere s r t := by
  rw [onSphere_iff s r t hd.ne']
  intro h
  have := sq_nonneg (r.direction.length_squared * t
    + Vec3.dot (r.origin - s.center) r.direction)
  linarith

/-- What the root selection of `sphere::hit` computes, for an exact square root and a
non-zero direction: the smallest parameter in range at which the ray meets the sphere. -/
theorem sphere_root_spec (m : CMath F) (hm : m.ExactSqrt) (s : Sphere F M) (r : Ray F)
    (t_min : F) (t_max : WithTop F) (hd : r.direction ≠ 0) :
    (∀ root, sphere_root m s r t_min t_max = some root →
      InRange t_min t_max root ∧ OnSphere s r root ∧
      ∀ t, InRange t_min t_max t → OnSphere s r t → root ≤ t) ∧
    (sphere_root m s r t_min t_max = none →
      ∀ t, InRange t_min t_max t → ¬ OnSphere s r t) := by
  have ha := length_squared_pos_of_ne_zero hd
  rw [sphere_root_eq]
  by_cases h0 : sphere_discriminant s r < 0
  · rw [if_pos h0]
    refine ⟨fun root h => (by cases h), fun _ t _ => not_onSphere_of_discriminant_neg s r ha h0 t⟩
  · rw [if_neg h0]
    have hon := onSphere_iff_root m hm s r ha h0
    have h12 := sphere_root1_le_root2 m hm s r ha h0
    by_cases h1 : InRange t_min t_max (sphere_root1 m s r)
    · rw [if_pos h1]
      refine ⟨fun root h => ?_, fun h => by cases h⟩
      obtain rfl : sphere_root1 m s r = root := Option.some.inj h
      refine ⟨h1, (hon _).mpr (Or.inl rfl), fun t _ ht => ?_⟩
      rcases (hon t).mp ht with e | e
      · exact e.ge
      · rw [e]; exact h12
    · rw [if_neg h1]
      by_cases h2 : InRange t_min t_max (sphere_root2 m s r)
      · rw [if_pos h2]
        refine ⟨fun root h => ?_, fun h => by cases h⟩
        obtain rfl : sphere_root2 m s r = root := Option.some.inj h
        refine ⟨h2, (hon _).mpr (Or.inr rfl), fun t htr ht => ?_⟩
        rcases (hon t).mp ht with e | e
        · exact absurd (e ▸ htr) h1
        · exact e.ge
      · rw [if_neg h2]
        refine ⟨fun root h => (by cases h), fun _ t htr ht => ?_⟩
        rcases (hon t).mp ht with e | e
        · exact h1 (e ▸ htr)
        · exact h2 (e ▸ htr)

@[simp] theorem sphere_record_t (m : CMath F) (nrm : NormalRule F)
    (s : Sphere F M) (r : Ray F) (root : F)
    (rec : HitRecord F M) : (sphere_record m nrm s r root rec).t = root := rfl

@[simp] theorem sphere_record_p (m : CMath F) (nrm : NormalRule F)
    (s : Sphere F M) (r : Ray F) (root : F)
    (rec : HitRecord F M) : (sphere_record m nrm s r root rec).p = r.at root := rfl

theorem sphere_hit_eq_some_iff (m : CMath F) (nrm : NormalRule F)
    (s : Sphere F M) (r : Ray F) (t_min : F)
    (t_max : WithTop F) (rec rec' : HitRecord F M) :
    sphere_hit m nrm s r t_min t_max rec = some rec' ↔
      ∃ root, sphere_root m s r t_min t_max = some root ∧
        rec' = sphere_record m nrm s r root rec := by
  unfold sphere_hit
  cases sphere_root m s r t_min t_max with
  | none => simp
  | some root => simp [eq_comm]

theorem sphere_hit_eq_none_iff (m : CMath F) (nrm : NormalRule F)
    (s : Sphere F M) (r : Ray F) (t_min : F)
    (t_max : WithTop F) (rec : HitRecord F M) :
    sphere_hit m nrm s r t_min t_max rec = none ↔ sphere_root m s r t_min t_max = none := by
  unfold sphere_hit
  cases sphere_root m s r t_min t_max with
  | none => simp
  | some root => simp

/-- C1. For every sphere, every ray with non-zero direction and every range
`[t_min, t_max]` (with an exact square root): `sphere::hit` returns `true` if and only if
some `t` in the range satisfies `|origin + t*direction - center|^2 = radius^2`; when it
returns `true`, `rec.t` is the smallest such `t`; and when `discriminant < 0` it reports
a miss for every `t_min`, `t_max`. The hypotheses `radius != 0` and `t_min <= t_max` of the
claim are not needed. -/
theorem sphere_hit_nearest_intersection (m : CMath F) (nrm : NormalRule F)
    (hm : m.ExactSqrt) (s : Sphere F M)
    (r : Ray F) (t_min : F) (t_max : WithTop F) (rec : HitRecord F M)
    (hd : r.direction ≠ 0) :
    ((sphere_hit m nrm s r t_min t_max rec).isSome ↔
        ∃ t, InRange t_min t_max t ∧ OnSphere s r t) ∧
    (∀ rec', sphere_hit m nrm s r t_min t_max rec = some rec' →
        InRange t_min t_max rec'.t ∧ OnSphere s r rec'.t ∧
        ∀ t, InRange t_min t_max t → OnSphere s r t → rec'.t ≤ t) ∧
    (sphere_discriminant s r < 0 →
        ∀ (lo : F) (hi : WithTop F) (rec0 : HitRecord F M),
          sphere_hit m nrm s r lo hi rec0 = none) := by
  have hspec := sphere_root_spec m hm s r t_min t_max hd
  refine ⟨⟨fun h => ?_, fun h => ?_⟩, fun rec' h => ?_, fun h0 lo hi rec0 => ?_⟩
  · obtain ⟨rec', hrec'⟩ := Option.isSome_iff_exists.mp h
    obtain ⟨root, hroot, -⟩ := (sphere_hit_eq_some_iff ..).mp hrec'
    exact ⟨root, (hspec.1 root hroot).1, (hspec.1 root hroot).2.1⟩
  · obtain ⟨t, htr, ht⟩ := h
    cases hh : sphere_hit m nrm s r t_min t_max rec with
    | none => exact absurd ht (hspec.2 ((sphere_hit_eq_none_iff ..).mp hh) t htr)
    | some rec' => rfl
  · obtain ⟨root, hroot, rfl⟩ := (sphere_hit_eq_some_iff ..).mp h
    simpa using hspec.1 root hroot
  · rw [sphere_hit_eq_none_iff, sphere_root_eq, if_pos h0]

theorem sphere_root_neg_radius (m : CMath F) (s : Sphere F M) (r : Ray F) (t_min : F)
    (t_max : WithTop F) :
    sphere_root m { s with radius := -s.radius } r t_min t_max
      = sphere_root m s r t_min t_max := by
  unfold sphere_root
  simp only [neg_mul_neg]

end sphere_theorems

theorem realMath_exactSqrt : realMath.ExactSqrt :=
  fun x hx => ⟨Real.sqrt_nonneg x, Real.mul_self_sqrt hx⟩

theorem rayDownZ_direction_ne_zero : rayDownZ.direction ≠ 0 := by
  intro h
  have hz := congrArg Vec3.z h
  simp [rayDownZ, Ray.direction] at hz

theorem sphere_hit_nearest_intersection_witness :
    realMath.ExactSqrt ∧ rayDownZ.direction ≠ 0 ∧
    ((sphere_hit realMath NormalRule.outward unitSphere rayDownZ 0 ⊤ staleRecord).isSome ↔
        ∃ t, InRange 0 ⊤ t ∧ OnSphere unitSphere rayDownZ t) :=
  ⟨realMath_exactSqrt, rayDownZ_direction_ne_zero,
    (sphere_hit_nearest_intersection realMath NormalRule.outward realMath_exactSqrt unitSphere
      rayDownZ 0 ⊤ staleRecord rayDownZ_direction_ne_zero).1⟩

theorem sphere_discriminant_example : sphere_discriminant unitSphere rayDownZ = 1 := by
  norm_num [sphere_discriminant, unitSphere, rayDownZ, Ray.origin, Ray.direction, Vec3.dot,
    Vec3.length_squared]

theorem sphere_root_example : sphere_root realMath unitSphere rayDownZ 0 ⊤ = some 2 := by
  rw [sphere_root_eq, sphere_root1, sphere_discriminant_example]
  have h : realMath.sqrt 1 = 1 := Real.sqrt_one
  rw [h]
  norm_num [InRange, unitSphere, rayDownZ, Ray.origin, Ray.direction, Vec3.dot,
    Vec3.length_squared]

theorem rayDownZ_at_two : rayDownZ.at 2 = ⟨0, 0, 1⟩ := by
  ext <;> norm_num [Ray.at, rayDownZ]

theorem unitSphere_outward_normal :
    ((⟨0, 0, 1⟩ : Vec3 ℝ) - unitSphere.center) / unitSphere.radius = ⟨0, 0, 1⟩ := by
  ext <;> norm_num [unitSphere]

theorem unitSphere_outward_normal_neg :
    ((⟨0, 0, 1⟩ : Vec3 ℝ) - unitSphere.center) / (-unitSphere.radius) = ⟨0, 0, -1⟩ := by
  ext <;> norm_num [unitSphere]

/-- The hit of the unit sphere at the origin by the ray from `(0,0,3)` along `-z`, for
every rule `nrm` for the stored normal. -/
theorem sphere_hit_example (nrm : NormalRule ℝ) :
    sphere_hit realMath nrm unitSphere rayDownZ 0 ⊤ staleRecord =
      some ⟨⟨0, 0, 1⟩, nrm rayDownZ ⟨0, 0, 1⟩, 2, true, 5, 5, ()⟩ := by
  rw [sphere_hit, sphere_root_example]
  simp only [sphere_record, HitRecord.set_face_normal, rayDownZ_at_two,
    unitSphere_outward_normal]
  norm_num [staleRecord, unitSphere, rayDownZ, Ray.direction, Vec3.dot]

/-- The same hit for the sphere of radius `-1`. -/
theorem sphere_hit_example_neg (nrm : NormalRule ℝ) :
    sphere_hit realMath nrm { unitSphere with radius := -unitSphere.radius } rayDownZ 0 ⊤
        staleRecord =
      some ⟨⟨0, 0, 1⟩, nrm rayDownZ ⟨0, 0, -1⟩, 2, false, 5, 5, ()⟩ := by
  rw [sphere_hit, sphere_root_neg_radius, sphere_root_example]
  simp only [sphere_record, HitRecord.set_face_normal, rayDownZ_at_two,
    unitSphere_outward_normal_neg]
  norm_num [staleRecord, unitSphere, rayDownZ, Ray.direction, Vec3.dot]

section sphere_radius_sign

variable {F M : Type} [LinearOrderedField F]

theorem sphere_record_u (m : CMath F) (nrm : NormalRule F) (s : Sphere F M) (r : Ray F)
    (root : F) (rec : HitRecord F M) : (sphere_record m nrm s r root rec).u = rec.u := rfl

theorem sphere_record_v (m : CMath F) (nrm : NormalRule F) (s : Sphere F M) (r : Ray F)
    (root : F) (rec : HitRecord F M) : (sphere_record m nrm s r root rec).v = rec.v := rfl

/-- Every successful `sphere::hit` returns the record with the surface coordinate it had
before the call. -/
theorem sphere_hit_uv_unchanged (m : CMath F) (nrm : NormalRule F) (s : Sphere F M)
    (r : Ray F) (t_min : F) (t_max : WithTop F) (rec h : HitRecord F M)
    (hh : sphere_hit m nrm s r t_min t_max rec = some h) : h.u = rec.u ∧ h.v = rec.v := by
  obtain ⟨root, -, rfl⟩ := (sphere_hit_eq_some_iff ..).mp hh
  exact ⟨sphere_record_u .., sphere_record_v ..⟩

theorem sphere_record_front_face (m : CMath F) (nrm : NormalRule F) (s : Sphere F M)
    (r : Ray F) (root : F) (rec : HitRecord F M) :
    (sphere_record m nrm s r root rec).front_face
      = decide (Vec3.dot r.direction ((r.at root - s.center) / s.radius) < 0) := rfl

theorem sphere_record_normal (m : CMath F) (nrm : NormalRule F) (s : Sphere F M)
    (r : Ray F) (root : F) (rec : HitRecord F M) :
    (sphere_record m nrm s r root rec).normal
      = nrm r ((r.at root - s.center) / s.radius) := rfl

theorem div_neg_radius (v : Vec3 F) (x : F) : v / (-x) = -(v / x) := by
  ext <;> simp [div_neg]

theorem dot_neg_right (u v : Vec3 F) : Vec3.dot u (-v) = -Vec3.dot u v := by
  simp only [Vec3.dot, Vec3.neg_x, Vec3.neg_y, Vec3.neg_z]; ring

theorem neg_neg_vec (v : Vec3 F) : -(-v) = v := by
  ext <;> simp

/-- What negating the radius does to `sphere::hit`, whatever `set_face_normal` stores as
the normal: the hit/miss answer, `rec.t` and `rec.p` are the same, the outward normal
`(rec.p - c)/radius` handed to `set_face_normal` is negated, the front-face flags are
opposite when the ray direction is not perpendicular to it, and each stored normal is what
the rule `nrm` makes of the respective outward normal. -/
theorem sphere_hit_neg_radius_outward (m : CMath F) (nrm : NormalRule F) (s : Sphere F M)
    (r : Ray F) (t_min : F) (t_max : WithTop F) (rec : HitRecord F M) :
    (sphere_hit m nrm { s with radius := -s.radius } r t_min t_max rec = none ↔
      sphere_hit m nrm s r t_min t_max rec = none) ∧
    ∀ h h', sphere_hit m nrm s r t_min t_max rec = some h →
      sphere_hit m nrm { s with radius := -s.radius } r t_min t_max rec = some h' →
      h'.t = h.t ∧ h'.p = h.p ∧
      (h'.p - s.center) / (-s.radius) = -((h.p - s.center) / s.radius) ∧
      h.normal = nrm r ((h.p - s.center) / s.radius) ∧
      h'.normal = nrm r (-((h.p - s.center) / s.radius)) ∧
      (Vec3.dot r.direction ((h.p - s.center) / s.radius) ≠ 0 →
        h'.front_face = !h.front_face) := by
  refine ⟨?_, fun h h' hh hh' => ?_⟩
  · rw [sphere_hit_eq_none_iff, sphere_hit_eq_none_iff, sphere_root_neg_radius]
  · obtain ⟨root, hroot, rfl⟩ := (sphere_hit_eq_some_iff ..).mp hh
    obtain ⟨root', hroot', rfl⟩ := (sphere_hit_eq_some_iff ..).mp hh'
    rw [sphere_root_neg_radius, hroot] at hroot'
    obtain rfl : root = root' := Option.some.inj hroot'
    refine ⟨rfl, rfl, div_neg_radius _ _, rfl, ?_, fun hne => ?_⟩
    · rw [sphere_record_normal, sphere_record_p, div_neg_radius]
    · simp only [sphere_record_p] at hne
      simp only [sphere_record_front_face, div_neg_radius, dot_neg_right]
      rcases lt_or_gt_of_ne hne with hlt | hgt
      · have h1 : ¬ (-Vec3.dot r.direction ((r.at root - s.center) / s.radius) < 0) := by
          linarith
        simp [hlt, h1]
      · have h1 : -Vec3.dot r.direction ((r.at root - s.center) / s.radius) < 0 := by
          linarith
        have h2 : ¬ Vec3.dot r.direction ((r.at root - s.center) / s.radius) < 0 := by
          linarith
        simp [h1, h2]

end sphere_radius_sign

/-- The stored normal under a negated radius is not settled by the sources: if
`set_face_normal` stores the outward normal as it is, the two stored normals of the
example are `(0,0,1)` and `(0,0,-1)`, each the negation of the other; if it stores the
outward normal turned against the ray, both are `(0,0,1)`. The same two bodies disagree
on the sign of `dot(direction, rec.normal)`: for the radius `-1` it is `1` under the
first and `-1` under the second. -/
theorem stored_normal_depends_on_rule :
    (sphere_hit realMath NormalRule.outward unitSphere rayDownZ 0 ⊤ staleRecord
        = some ⟨⟨0, 0, 1⟩, ⟨0, 0, 1⟩, 2, true, 5, 5, ()⟩ ∧
      sphere_hit realMath NormalRule.outward { unitSphere with radius := -unitSphere.radius }
          rayDownZ 0 ⊤ staleRecord
        = some ⟨⟨0, 0, 1⟩, ⟨0, 0, -1⟩, 2, false, 5, 5, ()⟩) ∧
    (sphere_hit realMath NormalRule.facing unitSphere rayDownZ 0 ⊤ staleRecord
        = some ⟨⟨0, 0, 1⟩, ⟨0, 0, 1⟩, 2, true, 5, 5, ()⟩ ∧
      sphere_hit realMath NormalRule.facing { unitSphere with radius := -unitSphere.radius }
          rayDownZ 0 ⊤ staleRecord
        = some ⟨⟨0, 0, 1⟩, ⟨0, 0, 1⟩, 2, false, 5, 5, ()⟩) ∧
    Vec3.dot rayDownZ.direction (⟨0, 0, -1⟩ : Vec3 ℝ) = 1 ∧
    Vec3.dot rayDownZ.direction (⟨0, 0, 1⟩ : Vec3 ℝ) = -1 := by
  have hf1 : (NormalRule.facing rayDownZ ⟨0, 0, 1⟩ : Vec3 ℝ) = ⟨0, 0, 1⟩ := by
    simp only [NormalRule.facing]
    rw [if_pos (by norm_num [rayDownZ, Ray.direction, Vec3.dot])]
  have hf2 : (NormalRule.facing rayDownZ ⟨0, 0, -1⟩ : Vec3 ℝ) = ⟨0, 0, 1⟩ := by
    simp only [NormalRule.facing]
    rw [if_neg (by norm_num [rayDownZ, Ray.direction, Vec3.dot])]
    ext <;> norm_num
  refine ⟨⟨sphere_hit_example _, sphere_hit_example_neg _⟩, ⟨?_, ?_⟩, ?_, ?_⟩
  · rw [sphere_hit_example, hf1]
  · rw [sphere_hit_example_neg, hf2]
  · norm_num [rayDownZ, Ray.direction, Vec3.dot]
  · norm_num [rayDownZ, Ray.direction, Vec3.dot]

theorem get_sphere_uv_example :
    get_sphere_uv realMath ((⟨0, 0, 1⟩ - unitSphere.center) / unitSphere.radius) 5 5
      = (1 / 4, 1 / 2) := by
  have harg : Complex.arg ⟨0, -1⟩ = -(Real.pi / 2) := by
    have : (⟨0, -1⟩ : ℂ) = -Complex.I := by
      apply Complex.ext <;> simp
    rw [this, Complex.arg_neg_I]
  have hpi : Real.pi ≠ 0 := Real.pi_ne_zero
  simp only [get_sphere_uv, realMath, unitSphere, Vec3.div_x, Vec3.div_y, Vec3.div_z,
    Vec3.sub_x, Vec3.sub_y, Vec3.sub_z]
  norm_num [harg, Real.arccos_zero]
  constructor <;> field_simp <;> ring

/-- C5 (failing input). The unit sphere at the origin is hit by the ray from `(0,0,3)`
along `-z` at the point `(0,0,1)`, whose spherical UV mapping is `(1/4, 1/2)`; the record
returned by `sphere::hit` still carries the surface coordinate `(5, 5)` it had before the
call, whatever `set_face_normal` stores as the normal. -/
theorem sphere_hit_uv_not_stored (nrm : NormalRule ℝ) :
    sphere_hit realMath nrm unitSphere rayDownZ 0 ⊤ staleRecord =
      some ⟨⟨0, 0, 1⟩, nrm rayDownZ ⟨0, 0, 1⟩, 2, true, 5, 5, ()⟩ ∧
    get_sphere_uv realMath ((⟨0, 0, 1⟩ - unitSphere.center) / unitSphere.radius) 5 5
      = (1 / 4, 1 / 2) :=
  ⟨sphere_hit_example nrm, get_sphere_uv_example⟩

/-! ## Theorems: image textures -/

section texture_buffer

variable {F : Type} [LinearOrderedField F]

theorem clamp_nonneg (x : F) : 0 ≤ clamp x 0 1 := by
  unfold clamp
  split_ifs with h1 h2
  · exact le_rfl
  · exact zero_le_one
  · exact not_lt.mp h1

theorem clamp_le_one (x : F) : clamp x 0 1 ≤ 1 := by
  unfold clamp
  split_ifs with h1 h2
  · exact zero_le_one
  · exact le_rfl
  · exact not_lt.mp h2

theorem read_byte_isSome (data : List Nat) (k : Int) (h0 : 0 ≤ k)
    (h1 : k < (data.length : Int)) : ∃ b, read_byte data k = some b := by
  unfold read_byte
  rw [if_pos h0]
  have : k.toNat < data.length := by omega
  exact ⟨data[k.toNat], List.getElem?_eq_getElem this⟩

theorem stored_pixel_isSome (d : Decoded) (col row : Int)
    (hlen : (d.data.length : Int) = 3 * d.width * d.height)
    (hc0 : 0 ≤ col) (hc1 : col ≤ d.width - 1) (hr0 : 0 ≤ row) (hr1 : row ≤ d.height - 1) :
    0 ≤ row * (3 * d.width) + col * 3 ∧
    row * (3 * d.width) + col * 3 + 2 < 3 * d.width * d.height ∧
    (stored_pixel d col row : Option (Vec3 F)).isSome := by
  have h1 : 0 ≤ row * d.width := mul_nonneg hr0 (by omega)
  have h2 : row * d.width ≤ (d.height - 1) * d.width :=
    mul_le_mul_of_nonneg_right hr1 (by omega)
  have h3 : (d.height - 1) * d.width = d.width * d.height - d.width := by ring
  have h4 : row * (3 * d.width) = 3 * (row * d.width) := by ring
  have h5 : 3 * d.width * d.height = 3 * (d.width * d.height) := by ring
  refine ⟨by omega, by omega, ?_⟩
  obtain ⟨b0, hb0⟩ := read_byte_isSome d.data ((row * d.width + col) * 3) (by omega) (by omega)
  obtain ⟨b1, hb1⟩ := read_byte_isSome d.data ((row * d.width + col) * 3 + 1)
    (by omega) (by omega)
  obtain ⟨b2, hb2⟩ := read_byte_isSome d.data ((row * d.width + col) * 3 + 2)
    (by omega) (by omega)
  simp only [stored_pixel, hb0, hb1, hb2, Option.isSome_some]

theorem int_wrap_eq (x : Int) (h0 : -2147483648 ≤ x) (h1 : x ≤ INT_MAX) : int_wrap x = x := by
  unfold INT_MAX at h1
  unfold int_wrap
  omega

/-- For a decoded image of at most `INT_MAX` bytes no product of the offset computation
overflows: the offset is `j*3*w + i*3`. -/
theorem image_texture_offset_eq (d : Decoded) (i j : Int)
    (hw : 1 ≤ d.width) (hh : 1 ≤ d.height) (hsize : 3 * d.width * d.height ≤ INT_MAX)
    (hi0 : 0 ≤ i) (hi1 : i ≤ d.width - 1) (hj0 : 0 ≤ j) (hj1 : j ≤ d.height - 1) :
    (image_texture_of_file (some d)).bytes_per_scanline = 3 * d.width ∧
    image_texture_offset (image_texture_of_file (some d)) i j = j * (3 * d.width) + i * 3 := by
  unfold INT_MAX at hsize
  have h1 : 0 ≤ j * d.width := mul_nonneg hj0 (by omega)
  have h2 : j * d.width ≤ (d.height - 1) * d.width :=
    mul_le_mul_of_nonneg_right hj1 (by omega)
  have h3 : (d.height - 1) * d.width = d.width * d.height - d.width := by ring
  have h4 : j * (3 * d.width) = 3 * (j * d.width) := by ring
  have h5 : 3 * d.width * d.height = 3 * (d.width * d.height) := by ring
  have h6 : d.width * 1 ≤ d.width * d.height := mul_le_mul_of_nonneg_left hh (by omega)
  have e1 : int_wrap (3 * d.width) = 3 * d.width :=
    int_wrap_eq _ (by omega) (by unfold INT_MAX; omega)
  have e2 : int_wrap (j * (3 * d.width)) = j * (3 * d.width) :=
    int_wrap_eq _ (by omega) (by unfold INT_MAX; omega)
  have e3 : int_wrap (i * 3) = i * 3 := int_wrap_eq _ (by omega) (by unfold INT_MAX; omega)
  simp only [image_texture_offset, image_texture_of_file, bytes_per_pixel, e1, e2, e3,
    and_self]

/-- A decoded image of at most `INT_MAX` bytes has `int` width and height. -/
theorem width_height_le_of_size (d : Decoded) (hw : 1 ≤ d.width) (hh : 1 ≤ d.height)
    (hsize : 3 * d.width * d.height ≤ INT_MAX) : d.width ≤ INT_MAX ∧ d.height ≤ INT_MAX := by
  unfold INT_MAX at *
  have h5 : 3 * d.width * d.height = 3 * (d.width * d.height) := by ring
  have h6 : d.width * 1 ≤ d.width * d.height := mul_le_mul_of_nonneg_left hh (by omega)
  have h7 : 1 * d.height ≤ d.width * d.height := mul_le_mul_of_nonneg_right hw (by omega)
  constructor <;> omega

end texture_buffer

section texture_theorems

variable {F : Type} [LinearOrderedField F] [FloorRing F]

theorem static_cast_int_bounds (x : F) (n : Int) (h0 : 0 ≤ x) (h1 : x ≤ (n : F)) :
    0 ≤ static_cast_int x ∧ static_cast_int x ≤ n := by
  unfold static_cast_int
  rw [if_pos h0]
  refine ⟨Int.floor_nonneg.mpr h0, ?_⟩
  have : ((⌊x⌋ : Int) : F) ≤ (n : F) := le_trans (Int.floor_le x) h1
  exact_mod_cast this

theorem image_texture_index_bounds (tex : ImageTexture) (u v : F)
    (hw : 1 ≤ tex.width) (hh : 1 ≤ tex.height)
    (hwmax : tex.width ≤ INT_MAX) (hhmax : tex.height ≤ INT_MAX) :
    0 ≤ (image_texture_index tex u v).1 ∧ (image_texture_index tex u v).1 ≤ tex.width - 1 ∧
    0 ≤ (image_texture_index tex u v).2 ∧ (image_texture_index tex u v).2 ≤ tex.height - 1 := by
  have hwF : (0 : F) ≤ (tex.width : F) := by exact_mod_cast (by omega : (0 : Int) ≤ tex.width)
  have hhF : (0 : F) ≤ (tex.height : F) := by
    exact_mod_cast (by omega : (0 : Int) ≤ tex.height)
  have hu0 := clamp_nonneg u
  have hu1 := clamp_le_one u
  have hv0 : (0 : F) ≤ 1 - clamp v 0 1 := by linarith [clamp_le_one v]
  have hv1 : 1 - clamp v 0 1 ≤ (1 : F) := by linarith [clamp_nonneg v]
  have hi := static_cast_int_bounds (clamp u 0 1 * (tex.width : F)) tex.width
    (mul_nonneg hu0 hwF) (by nlinarith)
  have hj := static_cast_int_bounds ((1 - clamp v 0 1) * (tex.height : F)) tex.height
    (mul_nonneg hv0 hhF) (by nlinarith)
  have ew : int_wrap (tex.width - 1) = tex.width - 1 :=
    int_wrap_eq _ (by omega) (by unfold INT_MAX at *; omega)
  have eh : int_wrap (tex.height - 1) = tex.height - 1 :=
    int_wrap_eq _ (by omega) (by unfold INT_MAX at *; omega)
  simp only [image_texture_index, ew, eh]
  refine ⟨?_, ?_, ?_, ?_⟩
  · split_ifs <;> omega
  · split_ifs <;> omega
  · split_ifs <;> omega
  · split_ifs <;> omega

/-- For a decoded image of at most `INT_MAX` bytes, `value` returns the stored pixel at
the indices it computes. -/
theorem image_texture_value_eq_stored_pixel (d : Decoded) (u v : F) (p : Vec3 F)
    (hw : 1 ≤ d.width) (hh : 1 ≤ d.height) (hsize : 3 * d.width * d.height ≤ INT_MAX) :
    image_texture_value (image_texture_of_file (some d)) u v p =
      stored_pixel d (image_texture_index (image_texture_of_file (some d)) u v).1
        (image_texture_index (image_texture_of_file (some d)) u v).2 := by
  obtain ⟨hwmax, hhmax⟩ := width_height_le_of_size d hw hh hsize
  obtain ⟨hi0, hi1, hj0, hj1⟩ :=
    image_texture_index_bounds (image_texture_of_file (some d)) u v hw hh hwmax hhmax
  have hoff := (image_texture_offset_eq d _ _ hw hh hsize hi0 hi1 hj0 hj1).2
  have e : ∀ i j : Int, j * (3 * d.width) + i * 3 = (j * d.width + i) * 3 := by
    intro i j; ring
  rw [e] at hoff
  have hdata : (image_texture_of_file (some d)).data = some d.data := rfl
  simp only [image_texture_value, hdata, hoff, stored_pixel]

theorem image_texture_index_zero_zero (d : Decoded) (hw : 1 ≤ d.width) (hh : 1 ≤ d.height)
    (hhmax : d.height ≤ INT_MAX) :
    image_texture_index (image_texture_of_file (some d)) (0 : F) 0 = (0, d.height - 1) := by
  have hc : clamp (0 : F) 0 1 = 0 := by simp [clamp]
  have eh : int_wrap (d.height - 1) = d.height - 1 :=
    int_wrap_eq _ (by omega) (by unfold INT_MAX at *; omega)
  simp only [image_texture_index, image_texture_of_file, hc, zero_mul, sub_zero, one_mul, eh]
  have h0 : static_cast_int (0 : F) = 0 := by simp [static_cast_int]
  have h1 : static_cast_int ((d.height : Int) : F) = d.height := by
    simp only [static_cast_int, Int.floor_intCast, Int.ceil_intCast, ite_self]
  rw [h0, h1, if_neg (by omega), if_pos (le_refl _)]

theorem image_texture_index_one_one (d : Decoded) (hw : 1 ≤ d.width) (hh : 1 ≤ d.height)
    (hwmax : d.width ≤ INT_MAX) :
    image_texture_index (image_texture_of_file (some d)) (1 : F) 1 = (d.width - 1, 0) := by
  have hc : clamp (1 : F) 0 1 = 1 := by simp [clamp]
  have ew : int_wrap (d.width - 1) = d.width - 1 :=
    int_wrap_eq _ (by omega) (by unfold INT_MAX at *; omega)
  simp only [image_texture_index, image_texture_of_file, hc, zero_mul, sub_self, one_mul, ew]
  have h0 : static_cast_int (0 : F) = 0 := by simp [static_cast_int]
  have h1 : static_cast_int ((d.width : Int) : F) = d.width := by
    simp only [static_cast_int, Int.floor_intCast, Int.ceil_intCast, ite_self]
  rw [h0, h1, if_pos (le_refl _), if_neg (by omega)]

/-- C7 (amended). For every image texture built from decoded data of `int` width
`w >= 1` and height `h >= 1`, the pixel indices computed by `value(0, 0, p)` are those of
the bottom-left stored pixel (column 0, row `h-1`) and the indices computed by
`value(1, 1, p)` are those of the top-right stored pixel (column `w-1`, row 0); and when
the buffer has `3*w*h <= INT_MAX` bytes, `value(0, 0, p)` and `value(1, 1, p)` return
the colours of these two pixels, each channel being the stored byte times `1/255`. -/
theorem image_texture_value_corners (d : Decoded) (p : Vec3 F)
    (hw : 1 ≤ d.width) (hh : 1 ≤ d.height)
    (hwmax : d.width ≤ INT_MAX) (hhmax : d.height ≤ INT_MAX)
    (hlen : (d.data.length : Int) = 3 * d.width * d.height) :
    image_texture_index (image_texture_of_file (some d)) (0 : F) 0 = (0, d.height - 1) ∧
    image_texture_index (image_texture_of_file (some d)) (1 : F) 1 = (d.width - 1, 0) ∧
    (3 * d.width * d.height ≤ INT_MAX →
      image_texture_value (image_texture_of_file (some d)) (0 : F) 0 p
          = stored_pixel d 0 (d.height - 1) ∧
      image_texture_value (image_texture_of_file (some d)) (1 : F) 1 p
          = stored_pixel d (d.width - 1) 0 ∧
      (stored_pixel d 0 (d.height - 1) : Option (Vec3 F)).isSome ∧
      (stored_pixel d (d.width - 1) 0 : Option (Vec3 F)).isSome) := by
  refine ⟨image_texture_index_zero_zero d hw hh hhmax, image_texture_index_one_one d hw hh hwmax,
    fun hsize => ?_⟩
  rw [image_texture_value_eq_stored_pixel d 0 0 p hw hh hsize,
    image_texture_value_eq_stored_pixel d 1 1 p hw hh hsize,
    image_texture_index_zero_zero d hw hh hhmax, image_texture_index_one_one d hw hh hwmax]
  exact ⟨rfl, rfl,
    (stored_pixel_isSome d 0 (d.height - 1) hlen le_rfl (by omega) (by omega) le_rfl).2.2,
    (stored_pixel_isSome d (d.width - 1) 0 hlen (by omega) le_rfl le_rfl (by omega)).2.2⟩

/-- C9. An image texture with no image data (default-constructed, or constructed from a
file whose decode failed) has a null `data` pointer, and `value(u, v, p)` returns the
debug colour red `(1,0,0)` for every `u`, `v` and `p`: it returns a colour, not a failed
buffer read. -/
theorem image_texture_value_no_data (u v : F) (p : Vec3 F) :
    image_texture_default.data = none ∧
    (image_texture_of_file none).data = none ∧
    image_texture_value image_texture_default u v p = some ⟨1, 0, 0⟩ ∧
    image_texture_value (image_texture_of_file none) u v p = some ⟨1, 0, 0⟩ :=
  ⟨rfl, rfl, rfl, rfl⟩

end texture_theorems

theorem twoRowImage_size :
    (1 : Int) ≤ twoRowImage.width ∧ (1 : Int) ≤ twoRowImage.height ∧
    twoRowImage.width ≤ INT_MAX ∧ twoRowImage.height ≤ INT_MAX ∧
    (twoRowImage.data.length : Int) = 3 * twoRowImage.width * twoRowImage.height ∧
    3 * twoRowImage.width * twoRowImage.height ≤ INT_MAX := by
  decide

theorem image_texture_value_corners_witness :
    (1 : Int) ≤ twoRowImage.width ∧ (1 : Int) ≤ twoRowImage.height ∧
    twoRowImage.width ≤ INT_MAX ∧ twoRowImage.height ≤ INT_MAX ∧
    (twoRowImage.data.length : Int) = 3 * twoRowImage.width * twoRowImage.height ∧
    3 * twoRowImage.width * twoRowImage.height ≤ INT_MAX ∧
    image_texture_value (image_texture_of_file (some twoRowImage)) (0 : ℝ) 0 ⟨0, 0, 0⟩
        = stored_pixel twoRowImage 0 (twoRowImage.height - 1) :=
  ⟨twoRowImage_size.1, twoRowImage_size.2.1, twoRowImage_size.2.2.1,
    twoRowImage_size.2.2.2.1, twoRowImage_size.2.2.2.2.1, twoRowImage_size.2.2.2.2.2,
    ((image_texture_value_corners twoRowImage ⟨0, 0, 0⟩ twoRowImage_size.1
      twoRowImage_size.2.1 twoRowImage_size.2.2.1 twoRowImage_size.2.2.2.1
      twoRowImage_size.2.2.2.2.1).2.2 twoRowImage_size.2.2.2.2.2).1⟩

theorem stored_pixel_twoRowImage_top :
    (stored_pixel twoRowImage 0 0 : Option (Vec3 ℝ)) = some ⟨10 / 255, 20 / 255, 30 / 255⟩ := by
  simp [stored_pixel, read_byte, twoRowImage]
  norm_num

theorem stored_pixel_twoRowImage_bottom :
    (stored_pixel twoRowImage 0 1 : Option (Vec3 ℝ)) = some ⟨40 / 255, 50 / 255, 60 / 255⟩ := by
  simp [stored_pixel, read_byte, twoRowImage]
  norm_num

/-- C7 (counterexample). For the image one pixel wide and two pixels high with rows
`(10,20,30)` and `(40,50,60)`, `value(0, 0, p)` is the colour of the bottom row, not of
the top-left stored pixel, and `value(1, 1, p)` is not the colour of the bottom-right
stored pixel (column `w-1`, row `h-1`). -/
theorem image_texture_value_corners_flipped :
    image_texture_value (image_texture_of_file (some twoRowImage)) (0 : ℝ) 0 ⟨0, 0, 0⟩
        = some ⟨40 / 255, 50 / 255, 60 / 255⟩ ∧
    (stored_pixel twoRowImage 0 0 : Option (Vec3 ℝ)) = some ⟨10 / 255, 20 / 255, 30 / 255⟩ ∧
    image_texture_value (image_texture_of_file (some twoRowImage)) (0 : ℝ) 0 ⟨0, 0, 0⟩
        ≠ stored_pixel twoRowImage 0 0 ∧
    image_texture_value (image_texture_of_file (some twoRowImage)) (1 : ℝ) 1 ⟨0, 0, 0⟩
        ≠ stored_pixel twoRowImage (twoRowImage.width - 1) (twoRowImage.height - 1) := by
  obtain ⟨hw, hh, hwmax, hhmax, -, hsize⟩ := twoRowImage_size
  have h00 : image_texture_value (image_texture_of_file (some twoRowImage)) (0 : ℝ) 0 ⟨0, 0, 0⟩
      = some ⟨40 / 255, 50 / 255, 60 / 255⟩ := by
    rw [image_texture_value_eq_stored_pixel _ _ _ _ hw hh hsize,
      image_texture_index_zero_zero _ hw hh hhmax]
    exact stored_pixel_twoRowImage_bottom
  have h11 : image_texture_value (image_texture_of_file (some twoRowImage)) (1 : ℝ) 1 ⟨0, 0, 0⟩
      = some ⟨10 / 255, 20 / 255, 30 / 255⟩ := by
    rw [image_texture_value_eq_stored_pixel _ _ _ _ hw hh hsize,
      image_texture_index_one_one _ hw hh hwmax]
    exact stored_pixel_twoRowImage_top
  refine ⟨h00, stored_pixel_twoRowImage_top, ?_, ?_⟩
  · rw [h00, stored_pixel_twoRowImage_top]
    intro h
    have hx := congrArg Vec3.x (Option.some.inj h)
    norm_num at hx
  · rw [h11]
    show _ ≠ (stored_pixel twoRowImage 0 1 : Option (Vec3 ℝ))
    rw [stored_pixel_twoRowImage_bottom]
    intro h
    have hx := congrArg Vec3.x (Option.some.inj h)
    norm_num at hx

/-! ## Theorems: the path integrator -/

section integrator_theorems

variable {F M S : Type} [LinearOrderedField F]

theorem exactSqrt_unique (m : CMath F) (hm : m.ExactSqrt) (x y : F) (hy : 0 ≤ y)
    (h : y * y = x) : m.sqrt x = y := by
  have hx : 0 ≤ x := h ▸ mul_nonneg hy hy
  obtain ⟨h0, h1⟩ := hm x hx
  have : (m.sqrt x - y) * (m.sqrt x + y) = 0 := by linear_combination h1 - h
  rcases mul_eq_zero.mp this with e | e
  · linarith
  · have hs : m.sqrt x = 0 := by linarith
    have hy0 : y = 0 := by linarith
    rw [hs, hy0]

theorem unit_vector_up (m : CMath F) (hm : m.ExactSqrt) (k : F) (hk : 0 < k) :
    (unit_vector m ⟨0, k, 0⟩).y = 1 := by
  have : m.sqrt (Vec3.length_squared ⟨0, k, 0⟩) = k :=
    exactSqrt_unique m hm _ k hk.le (by simp [Vec3.length_squared])
  simp only [unit_vector, Vec3.length, Vec3.div_y, this]
  exact div_self hk.ne'

theorem unit_vector_down (m : CMath F) (hm : m.ExactSqrt) (k : F) (hk : 0 < k) :
    (unit_vector m ⟨0, -k, 0⟩).y = -1 := by
  have : m.sqrt (Vec3.length_squared ⟨0, -k, 0⟩) = k :=
    exactSqrt_unique m hm _ k hk.le (by simp [Vec3.length_squared])
  simp only [unit_vector, Vec3.length, Vec3.div_y, this]
  rw [neg_div, div_self hk.ne']

theorem ray_color_miss_eq (m : CMath F) (scatter : Scatter F M S) (rec0 : HitRecord F M)
    (r : Ray F) (world : Hittable F M S) (depth : Int) (s s1 : S)
    (hdepth : 0 < depth) (hmiss : world r 0.001 ⊤ rec0 s = (none, s1)) :
    ray_color m scatter rec0 r world depth s =
      ((1 - 0.5 * ((unit_vector m r.direction).y + 1)) * (⟨1, 1, 1⟩ : Vec3 F)
        + (0.5 * ((unit_vector m r.direction).y + 1)) * (⟨0.5, 0.7, 1.0⟩ : Vec3 F), s1) := by
  rw [ray_color, if_neg (not_le.mpr hdepth)]
  simp only [hmiss]
  norm_num

/-- C2. For every ray, every scene, every material behaviour and every `depth ≤ 0`,
`ray_color` returns exactly the black colour `(0,0,0)`; the result does not depend on the
scene or on the materials and the global state is returned as it was received, so neither
the scene nor any material is queried. -/
theorem ray_color_depth_nonpos (m : CMath F) (scatter : Scatter F M S) (rec0 : HitRecord F M)
    (r : Ray F) (world : Hittable F M S) (depth : Int) (s : S) (h : depth ≤ 0) :
    ray_color m scatter rec0 r world depth s = (⟨0, 0, 0⟩, s) := by
  rw [ray_color, if_pos h]
  norm_num

/-- C3. For every `depth > 0` and every ray that the scene reports as a miss, `ray_color`
returns `(1-t)*(1,1,1) + t*(0.5,0.7,1.0)` with `t = 0.5*(unit_direction.y + 1)`; when the
unit direction has `y = 1` this is the sky colour `(0.5,0.7,1.0)`, when it has `y = -1`
it is white `(1,1,1)`; and with an exact square root a direction `(0,k,0)`, `k > 0`, has
unit `y = 1` while `(0,-k,0)` has unit `y = -1`. -/
theorem ray_color_miss (m : CMath F) (hm : m.ExactSqrt) (scatter : Scatter F M S)
    (rec0 : HitRecord F M) (r : Ray F) (world : Hittable F M S) (depth : Int) (s s1 : S)
    (hdepth : 0 < depth) (hmiss : world r 0.001 ⊤ rec0 s = (none, s1)) :
    ray_color m scatter rec0 r world depth s =
      ((1 - 0.5 * ((unit_vector m r.direction).y + 1)) * (⟨1, 1, 1⟩ : Vec3 F)
        + (0.5 * ((unit_vector m r.direction).y + 1)) * (⟨0.5, 0.7, 1.0⟩ : Vec3 F), s1) ∧
    ((unit_vector m r.direction).y = 1 →
      ray_color m scatter rec0 r world depth s = (⟨0.5, 0.7, 1.0⟩, s1)) ∧
    ((unit_vector m r.direction).y = -1 →
      ray_color m scatter rec0 r world depth s = (⟨1, 1, 1⟩, s1)) ∧
    (∀ k : F, 0 < k → r.direction = ⟨0, k, 0⟩ → (unit_vector m r.direction).y = 1) ∧
    (∀ k : F, 0 < k → r.direction = ⟨0, -k, 0⟩ → (unit_vector m r.direction).y = -1) := by
  have heq := ray_color_miss_eq m scatter rec0 r world depth s s1 hdepth hmiss
  refine ⟨heq, fun hy => ?_, fun hy => ?_, fun k hk hd => ?_, fun k hk hd => ?_⟩
  · rw [heq, hy]
    refine Prod.ext (Vec3.ext ?_ ?_ ?_) rfl <;>
      simp only [Vec3.add_x, Vec3.add_y, Vec3.add_z, Vec3.smul_x, Vec3.smul_y, Vec3.smul_z] <;>
      norm_num
  · rw [heq, hy]
    refine Prod.ext (Vec3.ext ?_ ?_ ?_) rfl <;>
      simp only [Vec3.add_x, Vec3.add_y, Vec3.add_z, Vec3.smul_x, Vec3.smul_y, Vec3.smul_z] <;>
      norm_num
  · rw [hd]; exact unit_vector_up m hm k hk
  · rw [hd]; exact unit_vector_down m hm k hk

/-- C4. For every `depth > 0` and every ray for which the scene, queried on
`[0.001, +infinity)`, reports a hit with record `rec`: if the hit material's `scatter`
returns `(attenuation, scattered)` then `ray_color(ray, scene, depth)` is the
component-wise product of `attenuation` with `ray_color(scattered, scene, depth-1)`; if
`scatter` signals absorption the result is exactly black `(0,0,0)`. -/
theorem ray_color_hit (m : CMath F) (scatter : Scatter F M S) (rec0 : HitRecord F M)
    (r : Ray F) (world : Hittable F M S) (depth : Int) (s s1 : S) (rec : HitRecord F M)
    (hdepth : 0 < depth) (hhit : world r 0.001 ⊤ rec0 s = (some rec, s1)) :
    (∀ attenuation scattered s2,
      scatter rec.mat_ptr r rec s1 = (some (attenuation, scattered), s2) →
      ray_color m scatter rec0 r world depth s =
        (attenuation * (ray_color m scatter rec0 scattered world (depth - 1) s2).1,
          (ray_color m scatter rec0 scattered world (depth - 1) s2).2)) ∧
    (∀ s2, scatter rec.mat_ptr r rec s1 = (none, s2) →
      ray_color m scatter rec0 r world depth s = (⟨0, 0, 0⟩, s2)) := by
  constructor
  · intro attenuation scattered s2 hsc
    rw [ray_color, if_neg (not_le.mpr hdepth)]
    simp only [hhit, hsc]
  · intro s2 hsc
    rw [ray_color, if_neg (not_le.mpr hdepth)]
    simp only [hhit, hsc]
    norm_num

end integrator_theorems

theorem ray_color_depth_nonpos_witness :
    (0 : Int) ≤ 0 ∧
    ray_color realMath yellowScatter staleRecord rayUp alwaysHit 0 () = (⟨0, 0, 0⟩, ()) :=
  ⟨le_refl 0,
    ray_color_depth_nonpos realMath yellowScatter staleRecord rayUp alwaysHit 0 () (le_refl 0)⟩

theorem ray_color_miss_witness :
    realMath.ExactSqrt ∧ (0 : Int) < 3 ∧
    emptyWorld rayUp 0.001 ⊤ staleRecord () = (none, ()) ∧
    ray_color realMath yellowScatter staleRecord rayUp emptyWorld 3 ()
      = (⟨0.5, 0.7, 1.0⟩, ()) :=
  ⟨realMath_exactSqrt, by decide, rfl,
    (ray_color_miss realMath realMath_exactSqrt yellowScatter staleRecord rayUp emptyWorld 3
      () () (by decide) rfl).2.1
      ((ray_color_miss realMath realMath_exactSqrt yellowScatter staleRecord rayUp emptyWorld 3
        () () (by decide) rfl).2.2.2.1 2 (by norm_num) rfl)⟩

theorem ray_color_hit_witness :
    (0 : Int) < 1 ∧
    alwaysHit rayUp 0.001 ⊤ staleRecord () = (some staleRecord, ()) ∧
    ray_color realMath yellowScatter staleRecord rayUp alwaysHit 1 () =
      ((⟨1, 1, 0⟩ : Vec3 ℝ)
          * (ray_color realMath yellowScatter staleRecord rayUp alwaysHit (1 - 1) ()).1,
        (ray_color realMath yellowScatter staleRecord rayUp alwaysHit (1 - 1) ()).2) :=
  ⟨by decide, rfl,
    (ray_color_hit realMath yellowScatter staleRecord rayUp alwaysHit 1 () () staleRecord
      (by decide) rfl).1 ⟨1, 1, 0⟩ rayUp () rfl⟩

/-! ## Theorems: a ray aimed at the centre -/

section toward_center

variable {F M : Type} [LinearOrderedField F]

/-- C10. For a sphere of radius `r > 0`, a ray whose origin lies outside it
(`r < |origin - center|`) and whose direction is a positive multiple of
`center - origin`, and a range that contains the smaller root: `sphere::hit` succeeds, the
distance from the ray origin to `rec.p` is `|origin - center| - r`, and `rec.t` is that
value when the direction has unit length. -/
theorem sphere_hit_toward_center (m : CMath F) (nrm : NormalRule F)
    (hm : m.ExactSqrt) (s : Sphere F M)
    (r : Ray F) (t_min : F) (t_max : WithTop F) (rec : HitRecord F M) (k : F)
    (hr : 0 < s.radius) (hout : s.radius < Vec3.length m (r.origin - s.center))
    (hk : 0 < k) (hdir : r.direction = k * (s.center - r.origin))
    (hrange : InRange t_min t_max (sphere_root1 m s r)) :
    ∃ h, sphere_hit m nrm s r t_min t_max rec = some h ∧
      Vec3.length m (h.p - r.origin) = Vec3.length m (r.origin - s.center) - s.radius ∧
      (Vec3.length m r.direction = 1 →
        h.t = Vec3.length m (r.origin - s.center) - s.radius) := by
  -- the distance `L` from the origin to the centre
  have hQ0 : 0 ≤ (r.origin - s.center).length_squared := by
    unfold Vec3.length_squared
    exact add_nonneg (add_nonneg (mul_self_nonneg _) (mul_self_nonneg _)) (mul_self_nonneg _)
  obtain ⟨hL0, hLL⟩ := hm _ hQ0
  unfold Vec3.length at hout ⊢
  set Q := (r.origin - s.center).length_squared with hQ
  set L := m.sqrt Q with hL
  have hLpos : 0 < L := lt_trans hr hout
  have hQpos : 0 < Q := by rw [← hLL]; exact mul_pos hLpos hLpos
  -- the coefficients of the quadratic
  have ha : r.direction.length_squared = k * k * Q := by
    rw [hdir, hQ]
    simp only [Vec3.length_squared, Vec3.smul_x, Vec3.smul_y, Vec3.smul_z, Vec3.sub_x,
      Vec3.sub_y, Vec3.sub_z]
    ring
  have hb : Vec3.dot (r.origin - s.center) r.direction = -(k * Q) := by
    rw [hdir, hQ]
    simp only [Vec3.dot, Vec3.length_squared, Vec3.smul_x, Vec3.smul_y, Vec3.smul_z,
      Vec3.sub_x, Vec3.sub_y, Vec3.sub_z]
    ring
  have hdisc : sphere_discriminant s r = (k * L * s.radius) * (k * L * s.radius) := by
    have : sphere_discriminant s r =
        Vec3.dot (r.origin - s.center) r.direction * Vec3.dot (r.origin - s.center) r.direction
          - r.direction.length_squared * (Q - s.radius * s.radius) := rfl
    rw [this, ha, hb, ← hLL]
    ring
  have hsq : m.sqrt (sphere_discriminant s r) = k * L * s.radius :=
    exactSqrt_unique m hm _ _ (by positivity) hdisc.symm
  have hroot1 : sphere_root1 m s r = (L - s.radius) / (k * L) := by
    unfold sphere_root1
    rw [hsq, ha, hb, ← hLL]
    field_simp
    ring
  have hdisc0 : ¬ sphere_discriminant s r < 0 := by
    rw [hdisc]; exact not_lt.mpr (mul_self_nonneg _)
  have hroot : sphere_root m s r t_min t_max = some (sphere_root1 m s r) := by
    rw [sphere_root_eq, if_neg hdisc0, if_pos hrange]
  refine ⟨sphere_record m nrm s r (sphere_root1 m s r) rec, ?_, ?_, ?_⟩
  · rw [sphere_hit, hroot]
  · have hlen : (r.at (sphere_root1 m s r) - r.origin).length_squared
        = (L - s.radius) * (L - s.radius) := by
      have e : (r.at (sphere_root1 m s r) - r.origin).length_squared
          = sphere_root1 m s r * sphere_root1 m s r * r.direction.length_squared := by
        simp only [Ray.at, Ray.origin, Ray.direction, Vec3.length_squared, Vec3.sub_x,
          Vec3.sub_y, Vec3.sub_z, Vec3.add_x, Vec3.add_y, Vec3.add_z, Vec3.smul_x,
          Vec3.smul_y, Vec3.smul_z]
        ring
      have hkL : k * L ≠ 0 := (mul_pos hk hLpos).ne'
      rw [e, ha, hroot1, ← hLL, div_mul_div_comm, div_mul_eq_mul_div,
        div_eq_iff (mul_ne_zero hkL hkL)]
      ring
    rw [sphere_record_p]
    exact exactSqrt_unique m hm _ _ (by linarith) hlen.symm
  · intro hunit
    rw [sphere_record_t, hroot1]
    have ha1 : k * k * Q = 1 := by
      have := (hm _ (by rw [ha]; positivity : 0 ≤ r.direction.length_squared)).2
      rw [hunit, ha] at this
      linarith
    have hkL : k * L = 1 := by
      have h1 : (k * L) * (k * L) = 1 := by rw [← ha1, ← hLL]; ring
      have h2 : (k * L - 1) * (k * L + 1) = 0 := by linear_combination h1
      rcases mul_eq_zero.mp h2 with e | e
      · linarith
      · have : 0 < k * L := mul_pos hk hLpos
        linarith
    rw [hkL, div_one]


end toward_center

theorem sphere_root1_example : sphere_root1 realMath unitSphere rayDownZ = 2 := by
  rw [sphere_root1, sphere_discriminant_example]
  have h : realMath.sqrt 1 = 1 := Real.sqrt_one
  rw [h]
  norm_num [unitSphere, rayDownZ, Ray.origin, Ray.direction, Vec3.dot, Vec3.length_squared]

theorem sphere_hit_toward_center_witness :
    realMath.ExactSqrt ∧ 0 < unitSphere.radius ∧
    unitSphere.radius < Vec3.length realMath (rayDownZ.origin - unitSphere.center) ∧
    (0 : ℝ) < 1 / 3 ∧
    rayDownZ.direction = (1 / 3 : ℝ) * (unitSphere.center - rayDownZ.origin) ∧
    InRange 0 ⊤ (sphere_root1 realMath unitSphere rayDownZ) ∧
    ∃ h, sphere_hit realMath NormalRule.outward unitSphere rayDownZ 0 ⊤ staleRecord = some h ∧
      Vec3.length realMath (h.p - rayDownZ.origin)
        = Vec3.length realMath (rayDownZ.origin - unitSphere.center) - unitSphere.radius ∧
      (Vec3.length realMath rayDownZ.direction = 1 →
        h.t = Vec3.length realMath (rayDownZ.origin - unitSphere.center)
          - unitSphere.radius) := by
  have h0 : 0 < unitSphere.radius := by norm_num [unitSphere]
  have h1 : unitSphere.radius < Vec3.length realMath (rayDownZ.origin - unitSphere.center) := by
    have : Vec3.length realMath (rayDownZ.origin - unitSphere.center) = 3 :=
      exactSqrt_unique realMath realMath_exactSqrt _ 3 (by norm_num)
        (by norm_num [unitSphere, rayDownZ, Ray.origin, Vec3.length_squared])
    rw [this]
    norm_num [unitSphere]
  have h2 : (0 : ℝ) < 1 / 3 := by norm_num
  have h3 : rayDownZ.direction = (1 / 3 : ℝ) * (unitSphere.center - rayDownZ.origin) := by
    ext <;> norm_num [unitSphere, rayDownZ, Ray.origin, Ray.direction]
  have h4 : InRange 0 ⊤ (sphere_root1 realMath unitSphere rayDownZ) := by
    rw [sphere_root1_example]
    exact ⟨by norm_num, le_top⟩
  exact ⟨realMath_exactSqrt, h0, h1, h2, h3, h4,
    sphere_hit_toward_center realMath NormalRule.outward realMath_exactSqrt unitSphere rayDownZ
      0 ⊤ staleRecord (1 / 3) h0 h1 h2 h3 h4⟩

/-! ## Theorems: tangent rays, the moving sphere and the hit record -/

section sphere_geometry

variable {F M : Type} [LinearOrderedField F]

theorem length_squared_nonneg (v : Vec3 F) : 0 ≤ v.length_squared :=
  add_nonneg (add_nonneg (mul_self_nonneg _) (mul_self_nonneg _)) (mul_self_nonneg _)

/-- With an exact square root, `|q - c| = |radius|` says `|q - c|^2 = radius^2`. -/
theorem onSurface_iff (m : CMath F) (hm : m.ExactSqrt) (c : Vec3 F) (radius : F) (q : Vec3 F) :
    OnSurface m c radius q ↔ (q - c).length_squared = radius * radius := by
  unfold OnSurface Vec3.length
  constructor
  · intro h
    have := (hm _ (length_squared_nonneg (q - c))).2
    rw [h, abs_mul_abs_self] at this
    exact this.symm
  · intro h
    exact exactSqrt_unique m hm _ _ (abs_nonneg _) (by rw [abs_mul_abs_self, h])

/-- The nearest point of the line is the foot of the perpendicular from `c`. -/
theorem nearest_param_perpendicular (c : Vec3 F) (r : Ray F) (hd : r.direction ≠ 0) :
    Vec3.dot (r.at (nearest_param c r) - c) r.direction = 0 := by
  have ha := (length_squared_pos_of_ne_zero hd).ne'
  have e : Vec3.dot (r.at (nearest_param c r) - c) r.direction
      = Vec3.dot (r.origin - c) r.direction
        + nearest_param c r * r.direction.length_squared := by
    simp only [Ray.at, Ray.origin, Ray.direction, Vec3.dot, Vec3.length_squared, Vec3.sub_x,
      Vec3.sub_y, Vec3.sub_z, Vec3.add_x, Vec3.add_y, Vec3.add_z, Vec3.smul_x, Vec3.smul_y,
      Vec3.smul_z]
    ring
  rw [e, nearest_param, div_mul_cancel₀ _ ha]
  ring

/-- C11. For every sphere and every ray with non-zero direction tangent to it (the
perpendicular distance from the centre to the ray's line equals `|radius|`), with an exact
square root: the discriminant computed by `sphere::hit` is exactly `0`, both candidate
roots are `-half_b/a`, and whenever that value lies in `[t_min, t_max]` the hit succeeds
with `rec.t = -half_b/a`. -/
theorem sphere_hit_tangent (m : CMath F) (nrm : NormalRule F)
    (hm : m.ExactSqrt) (s : Sphere F M) (r : Ray F)
    (t_min : F) (t_max : WithTop F) (rec : HitRecord F M)
    (hd : r.direction ≠ 0) (htan : line_distance m s.center r = |s.radius|) :
    sphere_discriminant s r = 0 ∧
    sphere_root1 m s r = nearest_param s.center r ∧
    sphere_root2 m s r = nearest_param s.center r ∧
    (InRange t_min t_max (nearest_param s.center r) →
      ∃ h, sphere_hit m nrm s r t_min t_max rec = some h ∧ h.t = nearest_param s.center r) := by
  have ha := length_squared_pos_of_ne_zero hd
  have hon : OnSphere s r (nearest_param s.center r) :=
    (onSurface_iff m hm _ _ _).mp htan
  have hdisc : sphere_discriminant s r = 0 := by
    rw [onSphere_iff s r _ ha.ne', nearest_param, mul_div_cancel₀ _ ha.ne'] at hon
    rw [← hon]; ring
  have hsq : m.sqrt (sphere_discriminant s r) = 0 := by
    rw [hdisc]; exact exactSqrt_unique m hm 0 0 le_rfl (by ring)
  have h1 : sphere_root1 m s r = nearest_param s.center r := by
    rw [sphere_root1, hsq, sub_zero, nearest_param]
  have h2 : sphere_root2 m s r = nearest_param s.center r := by
    rw [sphere_root2, hsq, add_zero, nearest_param]
  refine ⟨hdisc, h1, h2, fun hin => ?_⟩
  refine ⟨sphere_record m nrm s r (nearest_param s.center r) rec, ?_, rfl⟩
  rw [sphere_hit, sphere_root_eq, if_neg (by rw [hdisc]; exact lt_irrefl 0), h1, if_pos hin]

/-- `moving_sphere::hit` is `sphere::hit` of the static sphere at the ray's time. -/
theorem moving_sphere_hit_eq (m : CMath F) (nrm : NormalRule F) (ms : MovingSphere F M) (r : Ray F)
    (t_min : F) (t_max : WithTop F) (rec : HitRecord F M) :
    moving_sphere_hit m nrm ms r t_min t_max rec
      = sphere_hit m nrm (moving_sphere_at ms r.time) r t_min t_max rec := rfl

theorem moving_sphere_center_time0 (ms : MovingSphere F M) :
    moving_sphere_center ms ms.time0 = ms.center0 := by
  ext <;> simp [moving_sphere_center]

theorem moving_sphere_center_time1 (ms : MovingSphere F M) (ht : ms.time0 ≠ ms.time1) :
    moving_sphere_center ms ms.time1 = ms.center1 := by
  have h : ms.time1 - ms.time0 ≠ 0 := sub_ne_zero.mpr (Ne.symm ht)
  ext <;> simp [moving_sphere_center, div_self h]

/-- C13. For every moving sphere with `time0 != time1` and every ray with time field
`tau`, `moving_sphere::hit` gives the same answer and the same hit record (`t`, `p`,
`normal`, front-face flag, material, and the untouched `u`, `v`) as `sphere::hit` of the
static sphere with the same radius and material whose centre is
`center0 + ((tau - time0)/(time1 - time0))*(center1 - center0)`; and
`center(time0) = center0`, `center(time1) = center1`. -/
theorem moving_sphere_hit_refines (m : CMath F) (nrm : NormalRule F)
    (ms : MovingSphere F M) (r : Ray F)
    (t_min : F) (t_max : WithTop F) (rec : HitRecord F M) (ht : ms.time0 ≠ ms.time1) :
    moving_sphere_hit m nrm ms r t_min t_max rec
      = sphere_hit m nrm ⟨ms.center0
          + ((r.time - ms.time0) / (ms.time1 - ms.time0)) * (ms.center1 - ms.center0),
          ms.radius, ms.mat_ptr⟩ r t_min t_max rec ∧
    moving_sphere_center ms ms.time0 = ms.center0 ∧
    moving_sphere_center ms ms.time1 = ms.center1 :=
  ⟨rfl, moving_sphere_center_time0 ms, moving_sphere_center_time1 ms ht⟩

theorem length_squared_div (v : Vec3 F) (x : F) :
    (v / x).length_squared = v.length_squared / (x * x) := by
  simp only [Vec3.length_squared, Vec3.div_x, Vec3.div_y, Vec3.div_z]
  by_cases hx : x = 0
  · simp [hx]
  · field_simp

/-- The geometry of a successful `sphere::hit` with `radius != 0`, non-zero direction and
an exact square root, whatever `set_face_normal` stores as the normal:
`rec.p = origin + rec.t*direction` lies on the sphere (`|rec.p - center| = |radius|`), the
outward normal `(rec.p - center)/radius` has unit length, the front-face flag is true
exactly when `dot(direction, outward normal) < 0`, and the stored normal is what the rule
`nrm` makes of the outward normal. -/
theorem sphere_hit_record_outward (m : CMath F) (nrm : NormalRule F) (hm : m.ExactSqrt)
    (s : Sphere F M) (r : Ray F) (t_min : F) (t_max : WithTop F) (rec h : HitRecord F M)
    (hr : s.radius ≠ 0) (hd : r.direction ≠ 0)
    (hh : sphere_hit m nrm s r t_min t_max rec = some h) :
    h.p = r.origin + h.t * r.direction ∧
    OnSurface m s.center s.radius h.p ∧
    Vec3.length m ((h.p - s.center) / s.radius) = 1 ∧
    (h.front_face = true ↔ Vec3.dot r.direction ((h.p - s.center) / s.radius) < 0) ∧
    h.normal = nrm r ((h.p - s.center) / s.radius) := by
  obtain ⟨root, hroot, rfl⟩ := (sphere_hit_eq_some_iff ..).mp hh
  have hon : OnSphere s r root := ((sphere_root_spec m hm s r t_min t_max hd).1 root hroot).2.1
  refine ⟨rfl, (onSurface_iff m hm _ _ _).mpr hon, ?_, ?_, rfl⟩
  · refine exactSqrt_unique m hm _ 1 zero_le_one ?_
    rw [sphere_record_p, length_squared_div, hon, one_mul, div_self (mul_ne_zero hr hr)]
  · rw [sphere_record_front_face, sphere_record_p, decide_eq_true_iff]

/-- A normal stored turned against the ray never points along the ray. -/
theorem facing_normal_dot_nonpos (r : Ray F) (n : Vec3 F) :
    Vec3.dot r.direction (NormalRule.facing r n) ≤ 0 := by
  unfold NormalRule.facing
  by_cases hlt : Vec3.dot r.direction n < 0
  · rw [if_pos hlt]; exact hlt.le
  · rw [if_neg hlt, dot_neg_right]
    linarith [not_lt.mp hlt]

end sphere_geometry

theorem rayTangent_direction_ne_zero : rayTangent.direction ≠ 0 := by
  intro h
  have hz := congrArg Vec3.z h
  simp [rayTangent, Ray.direction] at hz

theorem rayTangent_line_distance :
    line_distance realMath unitSphere.center rayTangent = |unitSphere.radius| := by
  refine (onSurface_iff realMath realMath_exactSqrt _ _ _).mpr ?_
  norm_num [nearest_param, unitSphere, rayTangent, Ray.at, Ray.origin, Ray.direction,
    Vec3.dot, Vec3.length_squared]

theorem sphere_hit_tangent_witness :
    realMath.ExactSqrt ∧ rayTangent.direction ≠ 0 ∧
    line_distance realMath unitSphere.center rayTangent = |unitSphere.radius| ∧
    sphere_discriminant unitSphere rayTangent = 0 :=
  ⟨realMath_exactSqrt, rayTangent_direction_ne_zero, rayTangent_line_distance,
    (sphere_hit_tangent realMath NormalRule.outward realMath_exactSqrt unitSphere rayTangent 0 ⊤
      staleRecord rayTangent_direction_ne_zero rayTangent_line_distance).1⟩

theorem risingSphere_window : risingSphere.time0 ≠ risingSphere.time1 := by
  norm_num [risingSphere]

theorem moving_sphere_hit_refines_witness :
    risingSphere.time0 ≠ risingSphere.time1 ∧
    moving_sphere_center risingSphere risingSphere.time1 = risingSphere.center1 :=
  ⟨risingSphere_window,
    (moving_sphere_hit_refines realMath NormalRule.outward risingSphere rayDownZ 0 ⊤ staleRecord
      risingSphere_window).2.2⟩

/-! ## Theorems: bounding boxes -/

section bounding_boxes

variable {F M : Type} [LinearOrderedField F]

theorem coord_le_of_sq_le (x y z radius : F) (hr : 0 ≤ radius)
    (h : x * x + y * y + z * z = radius * radius) : -radius ≤ x ∧ x ≤ radius := by
  have hx : x * x ≤ radius * radius := by nlinarith [mul_self_nonneg y, mul_self_nonneg z]
  exact abs_le_of_sq_le_sq' (by simpa [sq] using hx) hr

/-- For a non-negative radius the box of `sphere::bounding_box` is ordered and contains
every point of the sphere's surface. -/
theorem sphere_bounding_box_encloses (s : Sphere F M) (time0 time1 : F) (hr : 0 ≤ s.radius) :
    ∃ box, sphere_bounding_box s time0 time1 = some box ∧ box.Ordered ∧
      ∀ q : Vec3 F, (q - s.center).length_squared = s.radius * s.radius → box.Contains q := by
  refine ⟨_, rfl, ?_, fun q hq => ?_⟩
  · simp only [Aabb.Ordered, Vec3.sub_x, Vec3.sub_y, Vec3.sub_z, Vec3.add_x, Vec3.add_y,
      Vec3.add_z]
    refine ⟨by linarith, by linarith, by linarith⟩
  · simp only [Vec3.length_squared, Vec3.sub_x, Vec3.sub_y, Vec3.sub_z] at hq
    have hx := coord_le_of_sq_le _ _ _ _ hr hq
    have hy := coord_le_of_sq_le (q.y - s.center.y) (q.z - s.center.z) (q.x - s.center.x) _ hr
      (by linarith)
    have hz := coord_le_of_sq_le (q.z - s.center.z) (q.x - s.center.x) (q.y - s.center.y) _ hr
      (by linarith)
    simp only [Aabb.Contains, Vec3.sub_x, Vec3.sub_y, Vec3.sub_z, Vec3.add_x, Vec3.add_y,
      Vec3.add_z]
    refine ⟨⟨by linarith [hx.1], by linarith [hx.2]⟩, ⟨by linarith [hy.1], by linarith [hy.2]⟩,
      ⟨by linarith [hz.1], by linarith [hz.2]⟩⟩

theorem interp_between (a b w : F) (h0 : 0 ≤ w) (h1 : w ≤ 1) :
    min a b ≤ a + w * (b - a) ∧ a + w * (b - a) ≤ max a b := by
  rcases le_total a b with hab | hab
  · rw [min_eq_left hab, max_eq_right hab]
    constructor <;> nlinarith
  · rw [min_eq_right hab, max_eq_left hab]
    constructor <;> nlinarith

theorem window_fraction (t0 t1 tau : F) (ht : t0 ≠ t1)
    (hlo : min t0 t1 ≤ tau) (hhi : tau ≤ max t0 t1) :
    0 ≤ (tau - t0) / (t1 - t0) ∧ (tau - t0) / (t1 - t0) ≤ 1 := by
  rcases lt_or_gt_of_ne ht with h | h
  · rw [min_eq_left h.le] at hlo
    rw [max_eq_right h.le] at hhi
    have hpos : 0 < t1 - t0 := sub_pos.mpr h
    exact ⟨div_nonneg (by linarith) hpos.le, (div_le_one hpos).mpr (by linarith)⟩
  · rw [min_eq_right h.le] at hlo
    rw [max_eq_left h.le] at hhi
    have hneg : t1 - t0 < 0 := sub_neg.mpr h
    exact ⟨div_nonneg_of_nonpos (by linarith) hneg.le,
      (div_le_one_of_neg hneg).mpr (by linarith)⟩

/-- C16. For every moving sphere with radius `r > 0` and window `time0 != time1` (and an
exact square root), `bounding_box` called with the two endpoints of the window returns
`true` with the surrounding box of the static boxes centred at `center0` and `center1`,
and for every time `tau` between the endpoints every point `q` with
`|q - center(tau)| = r` lies inside that box. -/
theorem moving_sphere_bounding_box_covers (m : CMath F) (hm : m.ExactSqrt)
    (ms : MovingSphere F M) (hr : 0 < ms.radius) (ht : ms.time0 ≠ ms.time1) :
    moving_sphere_bounding_box ms ms.time0 ms.time1 =
      some (surrounding_box
        ⟨ms.center0 - ⟨ms.radius, ms.radius, ms.radius⟩,
          ms.center0 + ⟨ms.radius, ms.radius, ms.radius⟩⟩
        ⟨ms.center1 - ⟨ms.radius, ms.radius, ms.radius⟩,
          ms.center1 + ⟨ms.radius, ms.radius, ms.radius⟩⟩) ∧
    ∀ tau : F, min ms.time0 ms.time1 ≤ tau → tau ≤ max ms.time0 ms.time1 →
      ∀ q : Vec3 F, OnSurface m (moving_sphere_center ms tau) ms.radius q →
        (surrounding_box
          ⟨ms.center0 - ⟨ms.radius, ms.radius, ms.radius⟩,
            ms.center0 + ⟨ms.radius, ms.radius, ms.radius⟩⟩
          ⟨ms.center1 - ⟨ms.radius, ms.radius, ms.radius⟩,
            ms.center1 + ⟨ms.radius, ms.radius, ms.radius⟩⟩).Contains q := by
  constructor
  · simp only [moving_sphere_bounding_box, moving_sphere_center_time0,
      moving_sphere_center_time1 ms ht]
  · intro tau hlo hhi q hq
    rw [onSurface_iff m hm] at hq
    obtain ⟨hw0, hw1⟩ := window_fraction ms.time0 ms.time1 tau ht hlo hhi
    set w := (tau - ms.time0) / (ms.time1 - ms.time0) with hw
    simp only [Vec3.length_squared, moving_sphere_center, Vec3.sub_x, Vec3.sub_y, Vec3.sub_z,
      Vec3.add_x, Vec3.add_y, Vec3.add_z, Vec3.smul_x, Vec3.smul_y, Vec3.smul_z, ← hw] at hq
    have hx := coord_le_of_sq_le _ _ _ _ hr.le hq
    have hy := coord_le_of_sq_le
      (q.y - (ms.center0.y + w * (ms.center1.y - ms.center0.y)))
      (q.z - (ms.center0.z + w * (ms.center1.z - ms.center0.z)))
      (q.x - (ms.center0.x + w * (ms.center1.x - ms.center0.x))) _ hr.le (by linarith)
    have hz := coord_le_of_sq_le
      (q.z - (ms.center0.z + w * (ms.center1.z - ms.center0.z)))
      (q.x - (ms.center0.x + w * (ms.center1.x - ms.center0.x)))
      (q.y - (ms.center0.y + w * (ms.center1.y - ms.center0.y))) _ hr.le (by linarith)
    have bx := interp_between ms.center0.x ms.center1.x w hw0 hw1
    have by' := interp_between ms.center0.y ms.center1.y w hw0 hw1
    have bz := interp_between ms.center0.z ms.center1.z w hw0 hw1
    simp only [Aabb.Contains, surrounding_box, Vec3.sub_x, Vec3.sub_y, Vec3.sub_z, Vec3.add_x,
      Vec3.add_y, Vec3.add_z, min_sub_sub_right, max_add_add_right]
    refine ⟨⟨by linarith [hx.1, bx.1], by linarith [hx.2, bx.2]⟩,
      ⟨by linarith [hy.1, by'.1], by linarith [hy.2, by'.2]⟩,
      ⟨by linarith [hz.1, bz.1], by linarith [hz.2, bz.2]⟩⟩

end bounding_boxes

/-- C15 (failing input). For the sphere of `main.cpp` with centre `(-1,0,-1)` and radius
`-0.45`, `sphere::bounding_box` returns the box with min corner `(-0.55, 0.45, -0.55)` and
max corner `(-1.45, -0.45, -1.45)`: the min corner is not below the max corner, and the
point `(-0.55, 0, -1)` of the sphere's surface is outside the box. -/
theorem sphere_bounding_box_negative_radius :
    sphere_bounding_box (⟨⟨-1, 0, -1⟩, -(45 / 100), ()⟩ : Sphere ℝ Unit) 0 1
      = some ⟨⟨-(55 / 100), 45 / 100, -(55 / 100)⟩, ⟨-(145 / 100), -(45 / 100), -(145 / 100)⟩⟩ ∧
    ¬ (⟨⟨-(55 / 100), 45 / 100, -(55 / 100)⟩,
        ⟨-(145 / 100), -(45 / 100), -(145 / 100)⟩⟩ : Aabb ℝ).Ordered ∧
    OnSurface realMath ⟨-1, 0, -1⟩ (-(45 / 100)) ⟨-(55 / 100), 0, -1⟩ ∧
    ¬ (⟨⟨-(55 / 100), 45 / 100, -(55 / 100)⟩,
        ⟨-(145 / 100), -(45 / 100), -(145 / 100)⟩⟩ : Aabb ℝ).Contains ⟨-(55 / 100), 0, -1⟩ := by
  refine ⟨?_, ?_, ?_, ?_⟩
  · simp only [sphere_bounding_box, Option.some.injEq, Aabb.mk.injEq]
    constructor <;> ext <;> norm_num
  · simp only [Aabb.Ordered]; norm_num
  · rw [onSurface_iff realMath realMath_exactSqrt]
    norm_num [Vec3.length_squared]
  · simp only [Aabb.Contains]; norm_num

theorem moving_sphere_bounding_box_covers_witness :
    realMath.ExactSqrt ∧ 0 < risingSphere.radius ∧ risingSphere.time0 ≠ risingSphere.time1 ∧
    moving_sphere_bounding_box risingSphere risingSphere.time0 risingSphere.time1 =
      some (surrounding_box
        ⟨risingSphere.center0
            - ⟨risingSphere.radius, risingSphere.radius, risingSphere.radius⟩,
          risingSphere.center0
            + ⟨risingSphere.radius, risingSphere.radius, risingSphere.radius⟩⟩
        ⟨risingSphere.center1
            - ⟨risingSphere.radius, risingSphere.radius, risingSphere.radius⟩,
          risingSphere.center1
            + ⟨risingSphere.radius, risingSphere.radius, risingSphere.radius⟩⟩) :=
  ⟨realMath_exactSqrt, by norm_num [risingSphere], risingSphere_window,
    (moving_sphere_bounding_box_covers realMath realMath_exactSqrt risingSphere
      (by norm_num [risingSphere]) risingSphere_window).1⟩

/-! ## Theorems: the checker texture -/

section checker_theorems

variable {F C : Type} [LinearOrderedField F]

theorem checker_texture_value_eq (m : CMath F) (tex : CheckerTexture F C) (u v : F)
    (p : Vec3 F) :
    checker_texture_value m tex u v p =
      if checker_sines m p < 0 then tex.odd u v p else tex.even u v p := rfl

theorem checker_sines_half_period (m : CMath F) (hsin : ∀ x, m.sin (x + m.PI) = -m.sin x)
    (p p' : Vec3 F) (hx : p'.x = p.x + m.PI / 10) (hy : p'.y = p.y) (hz : p'.z = p.z) :
    checker_sines m p' = -checker_sines m p := by
  have e : 10 * (p.x + m.PI / 10) = 10 * p.x + m.PI := by ring
  simp only [checker_sines, hx, hy, hz, e, hsin]
  ring

/-- C12 (amended). For every checker texture (with `sin (x + PI) = -sin x`) and every pair
of points `p`, `p'` with `p'.x = p.x + PI/10` and the same `y` and `z`, at which
`sin(10x)*sin(10y)*sin(10z)` is not zero, `value(u, v, p)` and `value(u, v, p')` are
delegated to different sub-textures: one to `odd` and the other to `even`. -/
theorem checker_texture_half_period (m : CMath F) (hsin : ∀ x, m.sin (x + m.PI) = -m.sin x)
    (tex : CheckerTexture F C) (u v : F) (p p' : Vec3 F)
    (hx : p'.x = p.x + m.PI / 10) (hy : p'.y = p.y) (hz : p'.z = p.z)
    (hne : checker_sines m p ≠ 0) :
    (checker_texture_value m tex u v p = tex.odd u v p ∧
      checker_texture_value m tex u v p' = tex.even u v p') ∨
    (checker_texture_value m tex u v p = tex.even u v p ∧
      checker_texture_value m tex u v p' = tex.odd u v p') := by
  have h' := checker_sines_half_period m hsin p p' hx hy hz
  rw [checker_texture_value_eq, checker_texture_value_eq, h']
  rcases lt_or_gt_of_ne hne with h | h
  · left
    rw [if_pos h, if_neg (by linarith)]
    exact ⟨rfl, rfl⟩
  · right
    rw [if_neg (by linarith), if_pos (by linarith)]
    exact ⟨rfl, rfl⟩

/-- C19 (amended). For every checker texture and every point `p`, the choice between the
sub-textures ignores the surface coordinate: `value(u, v, p)` is `odd->value(u, v, p)`
when `sin(10x)*sin(10y)*sin(10z) < 0` and `even->value(u, v, p)` otherwise; and
`value(u, v, p) = value(u', v', p)` for all `u, v, u', v'` when both sub-textures ignore
the surface coordinate at `p`. -/
theorem checker_texture_value_delegates (m : CMath F) (tex : CheckerTexture F C) (u v : F)
    (p : Vec3 F) :
    (checker_sines m p < 0 → checker_texture_value m tex u v p = tex.odd u v p) ∧
    (¬ checker_sines m p < 0 → checker_texture_value m tex u v p = tex.even u v p) ∧
    ((∀ a b a' b', tex.odd a b p = tex.odd a' b' p) →
      (∀ a b a' b', tex.even a b p = tex.even a' b' p) →
      ∀ u' v', checker_texture_value m tex u v p = checker_texture_value m tex u' v' p) := by
  refine ⟨fun h => ?_, fun h => ?_, fun ho he u' v' => ?_⟩
  · rw [checker_texture_value_eq, if_pos h]
  · rw [checker_texture_value_eq, if_neg h]
  · rw [checker_texture_value_eq, checker_texture_value_eq]
    by_cases h : checker_sines m p < 0
    · rw [if_pos h, if_pos h]; exact ho _ _ _ _
    · rw [if_neg h, if_neg h]; exact he _ _ _ _

end checker_theorems

theorem realMath_sin_add_pi (x : ℝ) : realMath.sin (x + realMath.PI) = -realMath.sin x :=
  Real.sin_add_pi x

theorem checker_sines_example :
    checker_sines realMath ⟨Real.pi / 20, Real.pi / 20, Real.pi / 20⟩ = 1 := by
  have e : 10 * (Real.pi / 20) = Real.pi / 2 := by ring
  have h : realMath.sin (Real.pi / 2) = 1 := Real.sin_pi_div_two
  simp only [checker_sines, e, h, mul_one]

theorem checker_texture_half_period_witness :
    (∀ x, realMath.sin (x + realMath.PI) = -realMath.sin x) ∧
    checker_sines realMath ⟨Real.pi / 20, Real.pi / 20, Real.pi / 20⟩ ≠ 0 ∧
    ((checker_texture_value realMath (checker_texture_of_colors ⟨0, 0, 0⟩ ⟨1, 1, 1⟩) 0 0
          ⟨Real.pi / 20, Real.pi / 20, Real.pi / 20⟩ = ⟨0, 0, 0⟩ ∧
        checker_texture_value realMath (checker_texture_of_colors ⟨0, 0, 0⟩ ⟨1, 1, 1⟩) 0 0
          ⟨Real.pi / 20 + realMath.PI / 10, Real.pi / 20, Real.pi / 20⟩ = ⟨1, 1, 1⟩) ∨
      (checker_texture_value realMath (checker_texture_of_colors ⟨0, 0, 0⟩ ⟨1, 1, 1⟩) 0 0
          ⟨Real.pi / 20, Real.pi / 20, Real.pi / 20⟩ = ⟨1, 1, 1⟩ ∧
        checker_texture_value realMath (checker_texture_of_colors ⟨0, 0, 0⟩ ⟨1, 1, 1⟩) 0 0
          ⟨Real.pi / 20 + realMath.PI / 10, Real.pi / 20, Real.pi / 20⟩ = ⟨0, 0, 0⟩)) :=
  ⟨realMath_sin_add_pi, by rw [checker_sines_example]; exact one_ne_zero,
    checker_texture_half_period realMath realMath_sin_add_pi
      (checker_texture_of_colors ⟨0, 0, 0⟩ ⟨1, 1, 1⟩) 0 0
      ⟨Real.pi / 20, Real.pi / 20, Real.pi / 20⟩
      ⟨Real.pi / 20 + realMath.PI / 10, Real.pi / 20, Real.pi / 20⟩ rfl rfl rfl
      (by rw [checker_sines_example]; exact one_ne_zero)⟩

/-- C12 (counterexample). The origin and the point `(PI/10, 0, 0)` differ by the half-period
shift along `x`, and the checker texture of the colours black (odd) and white (even)
returns white, the colour of `even`, at both: neither is delegated to `odd`. -/
theorem checker_texture_half_period_same_cell :
    (⟨realMath.PI / 10, 0, 0⟩ : Vec3 ℝ).x = (⟨0, 0, 0⟩ : Vec3 ℝ).x + realMath.PI / 10 ∧
    checker_texture_value realMath (checker_texture_of_colors ⟨0, 0, 0⟩ ⟨1, 1, 1⟩) 0 0
      ⟨0, 0, 0⟩ = ⟨1, 1, 1⟩ ∧
    checker_texture_value realMath (checker_texture_of_colors ⟨0, 0, 0⟩ ⟨1, 1, 1⟩) 0 0
      ⟨realMath.PI / 10, 0, 0⟩ = ⟨1, 1, 1⟩ ∧
    (⟨1, 1, 1⟩ : Vec3 ℝ) ≠ ⟨0, 0, 0⟩ := by
  have h0 : realMath.sin 0 = 0 := Real.sin_zero
  refine ⟨by simp, ?_, ?_, ?_⟩
  · rw [checker_texture_value_eq, if_neg]
    · rfl
    · simp only [checker_sines, h0, mul_zero, lt_self_iff_false, not_false_eq_true]
  · rw [checker_texture_value_eq, if_neg]
    · rfl
    · simp only [checker_sines, h0, mul_zero, lt_self_iff_false, not_false_eq_true]
  · intro h
    have hx := congrArg Vec3.x h
    norm_num at hx

theorem checker_texture_value_delegates_witness :
    ∀ u' v' : ℝ,
      checker_texture_value realMath (checker_texture_of_colors ⟨0, 0, 0⟩ ⟨1, 1, 1⟩) 0 0
          ⟨0, 0, 0⟩
        = checker_texture_value realMath (checker_texture_of_colors ⟨0, 0, 0⟩ ⟨1, 1, 1⟩)
          u' v' ⟨0, 0, 0⟩ :=
  (checker_texture_value_delegates realMath (checker_texture_of_colors ⟨0, 0, 0⟩ ⟨1, 1, 1⟩)
    0 0 ⟨0, 0, 0⟩).2.2 (fun _ _ _ _ => rfl) (fun _ _ _ _ => rfl)

theorem twoColumnImage_size :
    (1 : Int) ≤ twoColumnImage.width ∧ (1 : Int) ≤ twoColumnImage.height ∧
    twoColumnImage.width ≤ INT_MAX ∧ twoColumnImage.height ≤ INT_MAX ∧
    3 * twoColumnImage.width * twoColumnImage.height ≤ INT_MAX := by
  decide

theorem image_texture_index_one_zero (d : Decoded) (hw : 1 ≤ d.width) (hh : 1 ≤ d.height)
    (hwmax : d.width ≤ INT_MAX) (hhmax : d.height ≤ INT_MAX) :
    image_texture_index (image_texture_of_file (some d)) (1 : ℝ) 0
      = (d.width - 1, d.height - 1) := by
  have hc1 : clamp (1 : ℝ) 0 1 = 1 := by simp [clamp]
  have hc0 : clamp (0 : ℝ) 0 1 = 0 := by simp [clamp]
  have ew : int_wrap (d.width - 1) = d.width - 1 :=
    int_wrap_eq _ (by omega) (by unfold INT_MAX at *; omega)
  have eh : int_wrap (d.height - 1) = d.height - 1 :=
    int_wrap_eq _ (by omega) (by unfold INT_MAX at *; omega)
  simp only [image_texture_index, image_texture_of_file, hc1, hc0, sub_zero, one_mul, ew, eh]
  have hw' : static_cast_int ((d.width : Int) : ℝ) = d.width := by
    simp only [static_cast_int, Int.floor_intCast, Int.ceil_intCast, ite_self]
  have hh' : static_cast_int ((d.height : Int) : ℝ) = d.height := by
    simp only [static_cast_int, Int.floor_intCast, Int.ceil_intCast, ite_self]
  rw [hw', hh', if_pos (le_refl _), if_pos (le_refl _)]

theorem stored_pixel_twoColumnImage_left :
    (stored_pixel twoColumnImage 0 0 : Option (Vec3 ℝ))
      = some ⟨10 / 255, 20 / 255, 30 / 255⟩ := by
  simp [stored_pixel, read_byte, twoColumnImage]
  norm_num

theorem stored_pixel_twoColumnImage_right :
    (stored_pixel twoColumnImage 1 0 : Option (Vec3 ℝ))
      = some ⟨40 / 255, 50 / 255, 60 / 255⟩ := by
  simp [stored_pixel, read_byte, twoColumnImage]
  norm_num

/-- C19 (counterexample). A checker texture whose two sub-textures are the image texture of
an image two pixels wide and one pixel high, evaluated at the origin: `value(0, 0, p)` is
the colour of the left pixel and `value(1, 0, p)` is the colour of the right pixel, so
the result depends on the surface coordinate. -/
theorem checker_texture_value_depends_on_uv :
    checker_texture_value realMath
        (⟨image_texture_value (image_texture_of_file (some twoColumnImage)),
          image_texture_value (image_texture_of_file (some twoColumnImage))⟩ :
          CheckerTexture ℝ (Option (Vec3 ℝ))) 0 0 ⟨0, 0, 0⟩
      = some ⟨10 / 255, 20 / 255, 30 / 255⟩ ∧
    checker_texture_value realMath
        (⟨image_texture_value (image_texture_of_file (some twoColumnImage)),
          image_texture_value (image_texture_of_file (some twoColumnImage))⟩ :
          CheckerTexture ℝ (Option (Vec3 ℝ))) 1 0 ⟨0, 0, 0⟩
      = some ⟨40 / 255, 50 / 255, 60 / 255⟩ ∧
    (some ⟨10 / 255, 20 / 255, 30 / 255⟩ : Option (Vec3 ℝ))
      ≠ some ⟨40 / 255, 50 / 255, 60 / 255⟩ := by
  have h0 : realMath.sin 0 = 0 := Real.sin_zero
  have hs : ¬ checker_sines realMath (⟨0, 0, 0⟩ : Vec3 ℝ) < 0 := by
    simp only [checker_sines, h0, mul_zero, lt_self_iff_false, not_false_eq_true]
  obtain ⟨hw, hh, hwmax, hhmax, hsize⟩ := twoColumnImage_size
  refine ⟨?_, ?_, ?_⟩
  · rw [checker_texture_value_eq, if_neg hs]
    show image_texture_value (image_texture_of_file (some twoColumnImage)) (0 : ℝ) 0 ⟨0, 0, 0⟩ = _
    rw [image_texture_value_eq_stored_pixel _ _ _ _ hw hh hsize,
      image_texture_index_zero_zero _ hw hh hhmax]
    exact stored_pixel_twoColumnImage_left
  · rw [checker_texture_value_eq, if_neg hs]
    show image_texture_value (image_texture_of_file (some twoColumnImage)) (1 : ℝ) 0 ⟨0, 0, 0⟩ = _
    rw [image_texture_value_eq_stored_pixel _ _ _ _ hw hh hsize,
      image_texture_index_one_zero _ hw hh hwmax hhmax]
    exact stored_pixel_twoColumnImage_right
  · intro h
    have hx := congrArg Vec3.x (Option.some.inj h)
    norm_num at hx

/-! ## Theorems: termination, call counts and the colour range of the path integrator -/

section integrator_bounds

variable {F M S : Type} [LinearOrderedField F]

theorem ray_color_scatter_eq (m : CMath F) (scatter : Scatter F M S) (rec0 : HitRecord F M)
    (r : Ray F) (world : Hittable F M S) (depth : Int) (s s1 s2 : S) (rec : HitRecord F M)
    (attenuation : Vec3 F) (scattered : Ray F)
    (hdepth : 0 < depth) (hhit : world r 0.001 ⊤ rec0 s = (some rec, s1))
    (hsc : scatter rec.mat_ptr r rec s1 = (some (attenuation, scattered), s2)) :
    ray_color m scatter rec0 r world depth s =
      (attenuation * (ray_color m scatter rec0 scattered world (depth - 1) s2).1,
        (ray_color m scatter rec0 scattered world (depth - 1) s2).2) := by
  rw [ray_color, if_neg (not_le.mpr hdepth)]
  simp only [hhit, hsc]

theorem ray_color_absorb_eq (m : CMath F) (scatter : Scatter F M S) (rec0 : HitRecord F M)
    (r : Ray F) (world : Hittable F M S) (depth : Int) (s s1 s2 : S) (rec : HitRecord F M)
    (hdepth : 0 < depth) (hhit : world r 0.001 ⊤ rec0 s = (some rec, s1))
    (hsc : scatter rec.mat_ptr r rec s1 = (none, s2)) :
    ray_color m scatter rec0 r world depth s = (⟨0, 0, 0⟩, s2) := by
  rw [ray_color, if_neg (not_le.mpr hdepth)]
  simp only [hhit, hsc]
  norm_num

theorem ray_color_nonpos_eq (m : CMath F) (scatter : Scatter F M S) (rec0 : HitRecord F M)
    (r : Ray F) (world : Hittable F M S) (depth : Int) (s : S) (h : depth ≤ 0) :
    ray_color m scatter rec0 r world depth s = (⟨0, 0, 0⟩, s) := by
  rw [ray_color, if_pos h]
  norm_num

/-- The instrumented run of `ray_color`: same colour and state as the plain run, and the
counters move as stated. -/
theorem ray_color_counting (m : CMath F) (scatter : Scatter F M S) (rec0 : HitRecord F M)
    (world : Hittable F M S) (n : Nat) :
    ∀ (depth : Int) (r : Ray F) (s : S) (c : Calls), depth.toNat ≤ n →
      ∃ c' : Calls,
        ray_color m (counting_scatter scatter) rec0 r (counting_world world) depth (s, c)
          = ((ray_color m scatter rec0 r world depth s).1,
              ((ray_color m scatter rec0 r world depth s).2, c')) ∧
        c.queries ≤ c'.queries ∧ c'.queries ≤ c.queries + depth.toNat ∧
        c'.hits + c.queries ≤ c'.queries + c.hits ∧ c.hits ≤ c'.hits ∧
        c'.scatters + c.hits = c'.hits + c.scatters := by
  induction n with
  | zero =>
    intro depth r s c hn
    have hd : depth ≤ 0 := by omega
    refine ⟨c, ?_, le_rfl, by omega, by omega, le_rfl, by omega⟩
    rw [ray_color_nonpos_eq _ _ _ _ _ _ _ hd, ray_color_nonpos_eq _ _ _ _ _ _ _ hd]
  | succ n ih =>
    intro depth r s c hn
    by_cases hd : depth ≤ 0
    · refine ⟨c, ?_, le_rfl, by omega, by omega, le_rfl, by omega⟩
      rw [ray_color_nonpos_eq _ _ _ _ _ _ _ hd, ray_color_nonpos_eq _ _ _ _ _ _ _ hd]
    · have hpos : 0 < depth := not_le.mp hd
      rcases hw : world r 0.001 ⊤ rec0 s with ⟨_ | rec, s1⟩
      · -- the scene reports a miss
        have hw' : counting_world world r 0.001 ⊤ rec0 (s, c)
            = (none, (s1, ⟨c.queries + 1, c.hits, c.scatters⟩)) := by
          simp only [counting_world, hw]
        refine ⟨⟨c.queries + 1, c.hits, c.scatters⟩, ?_, ?_, ?_, ?_, ?_, ?_⟩
        · rw [ray_color_miss_eq _ _ _ _ _ _ _ _ hpos hw',
            ray_color_miss_eq _ _ _ _ _ _ _ _ hpos hw]
        all_goals dsimp only
        all_goals omega
      · have hw' : counting_world world r 0.001 ⊤ rec0 (s, c)
            = (some rec, (s1, ⟨c.queries + 1, c.hits + 1, c.scatters⟩)) := by
          simp only [counting_world, hw]
        rcases hs : scatter rec.mat_ptr r rec s1 with ⟨_ | ⟨attenuation, scattered⟩, s2⟩
        · -- the material absorbs
          have hs' : counting_scatter scatter rec.mat_ptr r rec
              (s1, ⟨c.queries + 1, c.hits + 1, c.scatters⟩)
              = (none, (s2, ⟨c.queries + 1, c.hits + 1, c.scatters + 1⟩)) := by
            simp only [counting_scatter, hs]
          refine ⟨⟨c.queries + 1, c.hits + 1, c.scatters + 1⟩, ?_, ?_, ?_, ?_, ?_, ?_⟩
          · rw [ray_color_absorb_eq _ _ _ _ _ _ _ _ _ _ hpos hw' hs',
              ray_color_absorb_eq _ _ _ _ _ _ _ _ _ _ hpos hw hs]
          all_goals dsimp only
          all_goals omega
        · -- the material scatters
          have hs' : counting_scatter scatter rec.mat_ptr r rec
              (s1, ⟨c.queries + 1, c.hits + 1, c.scatters⟩)
              = (some (attenuation, scattered),
                  (s2, ⟨c.queries + 1, c.hits + 1, c.scatters + 1⟩)) := by
            simp only [counting_scatter, hs]
          obtain ⟨c', he, h1, h2, h3, h4, h5⟩ := ih (depth - 1) scattered s2
            ⟨c.queries + 1, c.hits + 1, c.scatters + 1⟩ (by omega)
          dsimp only at h1 h2 h3 h4 h5
          refine ⟨c', ?_, ?_, ?_, ?_, ?_, ?_⟩
          · rw [ray_color_scatter_eq _ _ _ _ _ _ _ _ _ _ _ _ hpos hw' hs', he,
              ray_color_scatter_eq _ _ _ _ _ _ _ _ _ _ _ _ hpos hw hs]
          all_goals omega

/-- C18. `ray_color` is a total function of the ray, the scene and the integer depth
(negative values included), whatever the materials return. Run with counters starting at
zero, it makes at most `max(depth, 0)` scene queries, calls `scatter` exactly once per
reported hit, hence at most `max(depth, 0)` times, and returns the colour and state of the
uninstrumented run. -/
theorem ray_color_terminates_bounded (m : CMath F) (scatter : Scatter F M S)
    (rec0 : HitRecord F M) (r : Ray F) (world : Hittable F M S) (depth : Int) (s : S) :
    (depth.toNat : Int) = max depth 0 ∧
    ∃ c' : Calls,
      ray_color m (counting_scatter scatter) rec0 r (counting_world world) depth (s, ⟨0, 0, 0⟩)
        = ((ray_color m scatter rec0 r world depth s).1,
            ((ray_color m scatter rec0 r world depth s).2, c')) ∧
      c'.queries ≤ depth.toNat ∧ c'.hits ≤ c'.queries ∧ c'.scatters = c'.hits ∧
      c'.scatters ≤ depth.toNat := by
  refine ⟨Int.toNat_eq_max depth, ?_⟩
  obtain ⟨c', he, -, h2, h3, -, h5⟩ :=
    ray_color_counting m scatter rec0 world depth.toNat depth r s ⟨0, 0, 0⟩ le_rfl
  dsimp only at h2 h3 h5
  exact ⟨c', he, by omega, by omega, by omega, by omega⟩

theorem unit_vector_y_bounds (m : CMath F) (hm : m.ExactSqrt) (d : Vec3 F) (hd : d ≠ 0) :
    -1 ≤ (unit_vector m d).y ∧ (unit_vector m d).y ≤ 1 := by
  have hQ := length_squared_pos_of_ne_zero hd
  obtain ⟨hL0, hLL⟩ := hm _ hQ.le
  have hLpos : 0 < m.sqrt d.length_squared := by
    rcases hL0.lt_or_eq with h | h
    · exact h
    · rw [← h, mul_zero] at hLL
      exact absurd hLL hQ.ne
  have hy : d.y * d.y ≤ m.sqrt d.length_squared * m.sqrt d.length_squared := by
    rw [hLL]
    unfold Vec3.length_squared
    nlinarith [mul_self_nonneg d.x, mul_self_nonneg d.z]
  have hb := abs_le_of_sq_le_sq' (by simpa [sq] using hy) hL0
  simp only [unit_vector, Vec3.length, Vec3.div_y]
  exact ⟨(le_div_iff₀ hLpos).mpr (by linarith [hb.1]), (div_le_one hLpos).mpr hb.2⟩

theorem background_within (m : CMath F) (hm : m.ExactSqrt) (d : Vec3 F) (hd : d ≠ 0) :
    Vec3.Within (1 / 2) 1
      ((1 - 0.5 * ((unit_vector m d).y + 1)) * (⟨1, 1, 1⟩ : Vec3 F)
        + (0.5 * ((unit_vector m d).y + 1)) * (⟨0.5, 0.7, 1.0⟩ : Vec3 F)) := by
  obtain ⟨h1, h2⟩ := unit_vector_y_bounds m hm d hd
  simp only [Vec3.Within, Vec3.add_x, Vec3.add_y, Vec3.add_z, Vec3.smul_x, Vec3.smul_y,
    Vec3.smul_z]
  norm_num
  refine ⟨⟨by linarith, by linarith⟩, ⟨by linarith, by linarith⟩⟩

theorem within_mul (a b : Vec3 F) (ha : Vec3.Within 0 1 a) (hb : Vec3.Within 0 1 b) :
    Vec3.Within 0 1 (a * b) := by
  obtain ⟨⟨ax0, ax1⟩, ⟨ay0, ay1⟩, ⟨az0, az1⟩⟩ := ha
  obtain ⟨⟨bx0, bx1⟩, ⟨by0, by1⟩, ⟨bz0, bz1⟩⟩ := hb
  simp only [Vec3.Within, Vec3.mul_x, Vec3.mul_y, Vec3.mul_z]
  exact ⟨⟨mul_nonneg ax0 bx0, mul_le_one₀ ax1 bx0 bx1⟩,
    ⟨mul_nonneg ay0 by0, mul_le_one₀ ay1 by0 by1⟩,
    ⟨mul_nonneg az0 bz0, mul_le_one₀ az1 bz0 bz1⟩⟩

theorem ray_color_within (m : CMath F) (hm : m.ExactSqrt) (scatter : Scatter F M S)
    (rec0 : HitRecord F M) (world : Hittable F M S)
    (hsc : ∀ mat r rec s attenuation scattered s',
      scatter mat r rec s = (some (attenuation, scattered), s') →
        Vec3.Within 0 1 attenuation ∧ scattered.direction ≠ 0) (n : Nat) :
    ∀ (depth : Int) (r : Ray F) (s : S), depth.toNat ≤ n → r.direction ≠ 0 →
      Vec3.Within 0 1 (ray_color m scatter rec0 r world depth s).1 := by
  have hblack : Vec3.Within 0 1 (⟨0, 0, 0⟩ : Vec3 F) := by
    simp only [Vec3.Within]; norm_num
  induction n with
  | zero =>
    intro depth r s hn _
    rw [ray_color_nonpos_eq _ _ _ _ _ _ _ (by omega)]
    exact hblack
  | succ n ih =>
    intro depth r s hn hd
    by_cases hdep : depth ≤ 0
    · rw [ray_color_nonpos_eq _ _ _ _ _ _ _ hdep]
      exact hblack
    · have hpos : 0 < depth := not_le.mp hdep
      rcases hw : world r 0.001 ⊤ rec0 s with ⟨_ | rec, s1⟩
      · rw [ray_color_miss_eq _ _ _ _ _ _ _ _ hpos hw]
        obtain ⟨⟨x0, x1⟩, ⟨y0, y1⟩, ⟨z0, z1⟩⟩ := background_within m hm r.direction hd
        exact ⟨⟨by linarith, x1⟩, ⟨by linarith, y1⟩, ⟨by linarith, z1⟩⟩
      · rcases hs : scatter rec.mat_ptr r rec s1 with ⟨_ | ⟨attenuation, scattered⟩, s2⟩
        · rw [ray_color_absorb_eq _ _ _ _ _ _ _ _ _ _ hpos hw hs]
          exact hblack
        · rw [ray_color_scatter_eq _ _ _ _ _ _ _ _ _ _ _ _ hpos hw hs]
          obtain ⟨ha, hdir⟩ := hsc _ _ _ _ _ _ _ hs
          exact within_mul _ _ ha (ih (depth - 1) scattered s2 (by omega) hdir)

/-- C20. If every attenuation colour returned by `scatter` has its three components in
`[0,1]` and every traced ray (the given one and every scattered one) has non-zero
direction, then, with an exact square root, each component of the result of `ray_color`
lies in `[0,1]` for every ray, scene and depth; and when the scene reports a miss at
`depth > 0` each component lies in `[0.5, 1]`. -/
theorem ray_color_in_unit_range (m : CMath F) (hm : m.ExactSqrt) (scatter : Scatter F M S)
    (rec0 : HitRecord F M) (world : Hittable F M S)
    (hsc : ∀ mat r rec s attenuation scattered s',
      scatter mat r rec s = (some (attenuation, scattered), s') →
        Vec3.Within 0 1 attenuation ∧ scattered.direction ≠ 0)
    (r : Ray F) (depth : Int) (s : S) (hd : r.direction ≠ 0) :
    Vec3.Within 0 1 (ray_color m scatter rec0 r world depth s).1 ∧
    (∀ s1, 0 < depth → world r 0.001 ⊤ rec0 s = (none, s1) →
      Vec3.Within (1 / 2) 1 (ray_color m scatter rec0 r world depth s).1) := by
  refine ⟨ray_color_within m hm scatter rec0 world hsc depth.toNat depth r s le_rfl hd,
    fun s1 hpos hw => ?_⟩
  rw [ray_color_miss_eq _ _ _ _ _ _ _ _ hpos hw]
  exact background_within m hm r.direction hd

end integrator_bounds

theorem rayUp_direction_ne_zero : rayUp.direction ≠ 0 := by
  intro h
  have hy := congrArg Vec3.y h
  simp [rayUp, Ray.direction] at hy

theorem upScatter_spec (mat : Unit) (r : Ray ℝ) (rec : HitRecord ℝ Unit) (s : Unit)
    (attenuation : Vec3 ℝ) (scattered : Ray ℝ) (s' : Unit)
    (h : upScatter mat r rec s = (some (attenuation, scattered), s')) :
    Vec3.Within 0 1 attenuation ∧ scattered.direction ≠ 0 := by
  simp only [upScatter, Prod.mk.injEq, Option.some.injEq] at h
  obtain ⟨⟨rfl, rfl⟩, -⟩ := h
  refine ⟨?_, rayUp_direction_ne_zero⟩
  simp only [Vec3.Within]
  norm_num

theorem ray_color_in_unit_range_witness :
    realMath.ExactSqrt ∧ rayUp.direction ≠ 0 ∧
    (∀ mat r rec s attenuation scattered s',
      upScatter mat r rec s = (some (attenuation, scattered), s') →
        Vec3.Within 0 1 attenuation ∧ scattered.direction ≠ 0) ∧
    Vec3.Within 0 1 (ray_color realMath upScatter staleRecord rayUp alwaysHit 3 ()).1 :=
  ⟨realMath_exactSqrt, rayUp_direction_ne_zero, upScatter_spec,
    (ray_color_in_unit_range realMath realMath_exactSqrt upScatter staleRecord alwaysHit
      upScatter_spec rayUp 3 () rayUp_direction_ne_zero).1⟩

/-! ## Theorems: the spherical UV mapping in exact real arithmetic -/

/-- In exact real arithmetic both values computed by `get_sphere_uv` lie in `[0,1]`. -/
theorem get_sphere_uv_real_range (p : Vec3 ℝ) (u v : ℝ) :
    (0 ≤ (get_sphere_uv realMath p u v).1 ∧ (get_sphere_uv realMath p u v).1 ≤ 1) ∧
    (0 ≤ (get_sphere_uv realMath p u v).2 ∧ (get_sphere_uv realMath p u v).2 ≤ 1) := by
  have hpi : 0 < Real.pi := Real.pi_pos
  have h1 := Complex.neg_pi_lt_arg ⟨p.x, -p.z⟩
  have h2 := Complex.arg_le_pi ⟨p.x, -p.z⟩
  have h3 := Real.arccos_nonneg (-p.y)
  have h4 := Real.arccos_le_pi (-p.y)
  simp only [get_sphere_uv, realMath]
  refine ⟨⟨div_nonneg (by linarith) (by linarith), (div_le_one (by linarith)).mpr (by linarith)⟩,
    ⟨div_nonneg h3 hpi.le, (div_le_one hpi).mpr h4⟩⟩

/-- In exact real arithmetic five of the six axis points give the values of the table in
the comment of `get_sphere_uv`. The remaining one, `<-1 0 0>`, gives `u = 1` here, where
`-0 = 0` and `atan2(0, -1) = PI`; the code computes `atan2(-0.0, -1.0)`, which is `-PI` in
IEEE arithmetic and gives the documented `u = 0`. -/
theorem get_sphere_uv_real_axes (u v : ℝ) :
    get_sphere_uv realMath ⟨1, 0, 0⟩ u v = (1 / 2, 1 / 2) ∧
    get_sphere_uv realMath ⟨0, 1, 0⟩ u v = (1 / 2, 1) ∧
    get_sphere_uv realMath ⟨0, -1, 0⟩ u v = (1 / 2, 0) ∧
    get_sphere_uv realMath ⟨0, 0, 1⟩ u v = (1 / 4, 1 / 2) ∧
    get_sphere_uv realMath ⟨0, 0, -1⟩ u v = (3 / 4, 1 / 2) ∧
    get_sphere_uv realMath ⟨-1, 0, 0⟩ u v = (1, 1 / 2) := by
  have hpi : Real.pi ≠ 0 := Real.pi_ne_zero
  have e1 : (⟨1, 0⟩ : ℂ) = 1 := by apply Complex.ext <;> simp
  have e0 : (⟨0, 0⟩ : ℂ) = 0 := by apply Complex.ext <;> simp
  have eI : (⟨0, 1⟩ : ℂ) = Complex.I := by apply Complex.ext <;> simp
  have enI : (⟨0, -1⟩ : ℂ) = -Complex.I := by apply Complex.ext <;> simp
  have en1 : (⟨-1, 0⟩ : ℂ) = -1 := by apply Complex.ext <;> simp
  simp only [get_sphere_uv, realMath, neg_zero, neg_neg, e1, e0, eI, enI, en1, Complex.arg_one,
    Complex.arg_zero, Complex.arg_I, Complex.arg_neg_I, Complex.arg_neg_one, Real.arccos_zero,
    Real.arccos_one, Real.arccos_neg_one, Prod.mk.injEq]
  refine ⟨⟨?_, ?_⟩, ⟨?_, ?_⟩, ⟨?_, ?_⟩, ⟨?_, ?_⟩, ⟨?_, ?_⟩, ⟨?_, ?_⟩⟩ <;> field_simp <;> ring

end RTinOneWeek
